import Mathlib

/-!
# Verification of the Degenter trade-to-candle pipeline

Shallow embedding, in Lean 4, of the core of the Degenter ClickHouse indexer:

* `core/ohlcv.js` (two shipped versions: one with the cross-batch continuity
  pass, one without): batch aggregation of candle inputs, the continuity pass
  over the `lastCloseByPool` cache, and the decimal serialisation used by the
  bulk insert;
* `core/trades.js`: the trade writer's row serialisation;
* `api/util/pool-select.js`: `firstUzigPool`, `bestUzigPool`,
  `resolvePoolSelection`, `changePctForMinutes`;
* `lib/pg_notify.js` (both shipped versions): channel-name validation.

Modelling conventions:

* JavaScript numbers are modelled by `JSNum`: an exact rational for every
  finite double, plus `nan` / `inf` / `ninf`.  Orderings and arithmetic used
  by the code (comparisons, `+`, `max`/`min` patterns) agree with the IEEE
  behaviour on finite values, which is all the aggregation code relies on.
* JavaScript strings are Lean `String`s; the JS `<` comparison on strings is
  the lexicographic order on code units, modelled by the `String` linear
  order (they agree on all strings the pipeline produces).
* A JS `Map` is an insertion-ordered association list `List (key × value)`
  whose keys are pairwise distinct; `map.set` on an existing key updates the
  entry in place, on a fresh key appends.
* Database tables are lists of typed rows in storage order; a SQL query is
  translated into the corresponding list computation.
* Effectful wrappers (`pgNotify`) return `Except` values carrying the list of
  effects they would perform, so "fails with no side effect" is expressible.
-/

/-! ## Decimal rendering of natural numbers

JavaScript stringifies the (integer) pool ids with their decimal digits, both
in the template literal `` `${it.pool_id}__${it.bucket_start}` `` and in
`String(r.pool_id ?? '')`.  `natToChars` is that rendering (fuel recursion so
that the kernel can evaluate it). -/

def natToCharsAux : Nat → Nat → List Char
  | 0, _ => []
  | fuel + 1, n =>
    if n < 10 then [Nat.digitChar n]
    else natToCharsAux fuel (n / 10) ++ [Nat.digitChar (n % 10)]

def natToChars (n : Nat) : List Char :=
  natToCharsAux (n + 1) n

def natToStr (n : Nat) : String :=
  ⟨natToChars n⟩

/-- Value of a decimal digit character. -/
def charVal (c : Char) : Nat :=
  c.toNat - 48

/-- Parse a digit list back to the number (used only to prove injectivity of
the rendering). -/
def parseDigits (l : List Char) : Nat :=
  l.foldl (fun a c => a * 10 + charVal c) 0

theorem parseDigits_append (l : List Char) (c : Char) :
    parseDigits (l ++ [c]) = parseDigits l * 10 + charVal c := by
  unfold parseDigits
  rw [List.foldl_append]
  rfl

theorem charVal_digitChar {d : Nat} (h : d < 10) :
    charVal (Nat.digitChar d) = d := by
  interval_cases d <;> rfl

theorem digitChar_isDigit {d : Nat} (h : d < 10) :
    (Nat.digitChar d).isDigit = true := by
  interval_cases d <;> rfl

theorem natToCharsAux_spec :
    ∀ fuel n, n < fuel →
      parseDigits (natToCharsAux fuel n) = n ∧
      natToCharsAux fuel n ≠ [] ∧
      ∀ c ∈ natToCharsAux fuel n, c.isDigit = true := by
  intro fuel
  induction fuel with
  | zero => intro n h; omega
  | succ f ih =>
    intro n h
    by_cases h10 : n < 10
    · refine ⟨?_, ?_, ?_⟩
      · simp only [natToCharsAux, if_pos h10]
        show parseDigits [Nat.digitChar n] = n
        simp [parseDigits, charVal_digitChar h10]
      · simp [natToCharsAux, if_pos h10]
      · intro c hc
        simp only [natToCharsAux, if_pos h10, List.mem_singleton] at hc
        exact hc ▸ digitChar_isDigit h10
    · have hdiv : n / 10 < f := by
        have h1 : n / 10 < n := Nat.div_lt_self (by omega) (by omega)
        omega
      obtain ⟨hp, hne, hd⟩ := ih (n / 10) hdiv
      refine ⟨?_, ?_, ?_⟩
      · simp only [natToCharsAux, if_neg h10]
        rw [parseDigits_append, hp, charVal_digitChar (Nat.mod_lt _ (by omega))]
        omega
      · simp only [natToCharsAux, if_neg h10]
        intro hcontra
        exact hne (List.append_eq_nil.mp hcontra).1
      · intro c hc
        simp only [natToCharsAux, if_neg h10, List.mem_append, List.mem_singleton] at hc
        rcases hc with hc | hc
        · exact hd c hc
        · exact hc ▸ digitChar_isDigit (Nat.mod_lt _ (by omega))

theorem parseDigits_natToChars (n : Nat) : parseDigits (natToChars n) = n :=
  (natToCharsAux_spec (n + 1) n (Nat.lt_succ_self n)).1

theorem natToChars_ne_nil (n : Nat) : natToChars n ≠ [] :=
  (natToCharsAux_spec (n + 1) n (Nat.lt_succ_self n)).2.1

theorem natToChars_isDigit (n : Nat) : ∀ c ∈ natToChars n, c.isDigit = true :=
  (natToCharsAux_spec (n + 1) n (Nat.lt_succ_self n)).2.2

theorem natToChars_injective : Function.Injective natToChars := by
  intro m n h
  have := parseDigits_natToChars m
  rw [h, parseDigits_natToChars] at this
  omega

/-- Splitting a string of the shape `digits ++ '_' :: rest` is unambiguous. -/
theorem digits_underscore_split :
    ∀ (l1 l2 r1 r2 : List Char),
      (∀ c ∈ l1, c.isDigit = true) → (∀ c ∈ l2, c.isDigit = true) →
      l1 ++ '_' :: r1 = l2 ++ '_' :: r2 → l1 = l2 ∧ r1 = r2 := by
  intro l1
  induction l1 with
  | nil =>
    intro l2 r1 r2 _ h2 heq
    cases l2 with
    | nil => simpa using heq
    | cons d t =>
      exfalso
      have hd : d = '_' := by
        have := congrArg (List.head? ·) heq
        simpa using this.symm
      have : ('_' : Char).isDigit = true := hd ▸ h2 d (List.mem_cons_self _ _)
      simp [Char.isDigit] at this
  | cons d t ih =>
    intro l2 r1 r2 h1 h2 heq
    cases l2 with
    | nil =>
      exfalso
      have hd : d = '_' := by
        have := congrArg (List.head? ·) heq
        simpa using this
      have : ('_' : Char).isDigit = true := hd ▸ h1 d (List.mem_cons_self _ _)
      simp [Char.isDigit] at this
    | cons d2 t2 =>
      simp only [List.cons_append, List.cons.injEq] at heq
      obtain ⟨hd, htail⟩ := heq
      obtain ⟨ht, hr⟩ := ih t2 r1 r2 (fun c hc => h1 c (List.mem_cons_of_mem _ hc))
        (fun c hc => h2 c (List.mem_cons_of_mem _ hc)) htail
      exact ⟨by rw [hd, ht], hr⟩

/-! ## JavaScript numbers -/

/-- A JavaScript number: a finite double (modelled as the exact rational it
denotes), or one of the non-finite values. -/
inductive JSNum where
  | fin (q : ℚ)
  | nan
  | inf
  | ninf
deriving DecidableEq, Repr

/-- `Number.isFinite`. -/
def JSNum.isFinite : JSNum → Bool
  | .fin _ => true
  | _ => false

/-- `Number.isNaN`. -/
def JSNum.isNaN : JSNum → Bool
  | .nan => true
  | _ => false

/-- `Number(v || 0)` for a possibly-absent numeric `v`: JS `||` replaces every
falsy value (`undefined`, `null`, `0`, `NaN`) by the literal `0`. -/
def jsNumOrZero : Option JSNum → JSNum
  | none => .fin 0
  | some .nan => .fin 0
  | some (.fin q) => if q = 0 then .fin 0 else .fin q
  | some x => x

/-! ## `Number.prototype.toFixed`

`toFixed(s)` (ECMA-262): a `-` sign is emitted for a negative number and the
absolute value rendered; when the magnitude is at least `10^21` the result
falls back to `ToString(x)` (exponential notation, e.g. `"1e+21"`);
otherwise the rendered integer is the one closest to `|x| * 10^s`, ties
resolved upward, with the digit string padded to at least `s + 1` digits
and a point inserted before the last `s` digits. -/

/-- The fixed-fraction branch of `toFixed` (magnitude below `10^21`). -/
def jsToFixedFrac (q : ℚ) (s : Nat) : String :=
  let n : Nat := (⌊|q| * (10 : ℚ) ^ s + 1 / 2⌋).toNat
  let ds := natToChars n
  let pad := List.replicate (s + 1 - ds.length) '0' ++ ds
  let ip : List Char := pad.take (pad.length - s)
  let fp : List Char := pad.drop (pad.length - s)
  (if q < 0 then "-" else "") ++ ⟨ip⟩ ++ "." ++ ⟨fp⟩

def stripTrailingZeros (l : List Char) : List Char :=
  (l.reverse.dropWhile (fun c => c == '0')).reverse

/-- `ToString` applied to a non-negative value of magnitude at least
`10^21` (at double precision always an integer): exponential notation
`d.ddd…e+k`.  The engine prints the double's shortest round-trip digit
sequence; this model prints the exact significant digits of the value.  No
theorem below inspects this branch's digits — the branch exists so that
the fixed-fraction statements are correctly restricted to `|q| < 10^21`. -/
def jsLargeToString (x : ℚ) : String :=
  let ds := natToChars (⌊x⌋.toNat)
  let k := ds.length - 1
  match stripTrailingZeros ds with
  | [] => "0e+" ++ natToStr k
  | d :: rest =>
    ⟨[d]⟩ ++ (if rest.isEmpty then "" else "." ++ ⟨rest⟩) ++ "e+" ++ natToStr k

def jsToFixed (q : ℚ) (s : Nat) : String :=
  if (10 : ℚ) ^ 21 ≤ |q| then
    (if q < 0 then "-" else "") ++ jsLargeToString |q|
  else jsToFixedFrac q s

/-- Number of characters after the last `.` of a string. -/
def digitsAfterPoint (str : String) : Nat :=
  (str.data.reverse.takeWhile (fun c => c != '.')).length

theorem takeWhile_all_append (p : Char → Bool) (l r : List Char)
    (h : ∀ c ∈ l, p c = true) :
    (l ++ r).takeWhile p = l ++ r.takeWhile p := by
  induction l with
  | nil => rfl
  | cons x t ih =>
    have hx : p x = true := h x (List.mem_cons_self _ _)
    have ih' := ih (fun c hc => h c (List.mem_cons_of_mem _ hc))
    simp [List.takeWhile_cons, hx, ih']

theorem jsToFixedFrac_fracDigits (q : ℚ) (s : Nat) :
    digitsAfterPoint (jsToFixedFrac q s) = s := by
  unfold jsToFixedFrac digitsAfterPoint
  set n : Nat := (⌊|q| * (10 : ℚ) ^ s + 1 / 2⌋).toNat with hn
  set ds := natToChars n with hds
  set pad := List.replicate (s + 1 - ds.length) '0' ++ ds with hpad
  have hpadlen : s ≤ pad.length := by
    rw [hpad]
    simp only [List.length_append, List.length_replicate]
    omega
  have hfplen : (pad.drop (pad.length - s)).length = s := by
    rw [List.length_drop]
    omega
  have hpaddigit : ∀ c ∈ pad, c.isDigit = true := by
    intro c hc
    rw [hpad] at hc
    rcases List.mem_append.mp hc with hc | hc
    · rw [List.eq_of_mem_replicate hc]; rfl
    · exact natToChars_isDigit n c hc
  have hfpdigit : ∀ c ∈ pad.drop (pad.length - s), (c != '.') = true := by
    intro c hc
    have hdig : c.isDigit = true := hpaddigit c ((List.drop_sublist _ _).mem hc)
    rw [bne_iff_ne]
    intro hcontra
    rw [hcontra] at hdig
    simp [Char.isDigit] at hdig
  have hdata : ((if q < 0 then "-" else "") ++ (⟨pad.take (pad.length - s)⟩ : String)
      ++ "." ++ (⟨pad.drop (pad.length - s)⟩ : String)).data
      = ((if q < 0 then ['-'] else []) ++ pad.take (pad.length - s)) ++ '.'
        :: pad.drop (pad.length - s) := by
    by_cases hq : q < 0 <;> simp [hq, String.data_append]
  rw [hdata, List.reverse_append]
  simp only [List.reverse_cons]
  rw [List.append_assoc]
  simp only [List.singleton_append]
  rw [takeWhile_all_append _ _ _ (fun c hc => hfpdigit c (List.mem_reverse.mp hc))]
  simp only [List.takeWhile_cons]
  norm_num
  omega

theorem jsToFixed_fracDigits (q : ℚ) (s : Nat) (h : |q| < (10 : ℚ) ^ 21) :
    digitsAfterPoint (jsToFixed q s) = s := by
  unfold jsToFixed
  rw [if_neg (not_le.mpr h)]
  exact jsToFixedFrac_fracDigits q s

theorem jsToFixed_large (q : ℚ) (s : Nat) (h : (10 : ℚ) ^ 21 ≤ |q|) :
    jsToFixed q s = (if q < 0 then "-" else "") ++ jsLargeToString |q| := by
  unfold jsToFixed
  rw [if_pos h]

namespace Ohlcv

/-- `core/ohlcv.js` (continuity version), `decOrZero(v, scale)`:
format decimals safely for ClickHouse `Decimal`.  Both call sites pass an
explicit scale (18 for prices, 8 for volumes/liquidity), so the
`scale == null` fallback branch (`String(n)`) is never taken and is not
modelled. -/
def decOrZero (v : Option JSNum) (scale : Nat) : String :=
  match jsNumOrZero v with
  | .fin q => jsToFixed q scale
  | _ => "0"

/-- One SQL argument of the candle bulk insert. -/
inductive SqlArg where
  | nat (n : Nat)
  | str (s : String)
deriving DecidableEq, Repr

/-- A row as it reaches `buildInsertSQL`: a duck-typed object whose numeric
fields may be absent or non-finite. -/
structure RawRow where
  pool_id : Option Nat
  bucket_start : String
  openPx : Option JSNum
  high : Option JSNum
  low : Option JSNum
  close : Option JSNum
  volume_zig : Option JSNum
  trade_count : Option Nat
  liquidity_zig : Option JSNum
deriving DecidableEq, Repr

/-- The nine insert arguments `buildInsertSQL` pushes for one row. -/
def rowArgs (r : RawRow) : List SqlArg :=
  [ .nat (r.pool_id.getD 0),
    .str r.bucket_start,
    .str (decOrZero r.openPx 18),
    .str (decOrZero r.high 18),
    .str (decOrZero r.low 18),
    .str (decOrZero r.close 18),
    .str (decOrZero r.volume_zig 8),
    .nat (r.trade_count.getD 0),
    .str (decOrZero (some (jsNumOrZero r.liquidity_zig)) 8) ]

/-- `buildInsertSQL`'s argument list (the SQL text itself is a constant
template filled with placeholders and is not modelled). -/
def buildInsertSQLArgs (rows : List RawRow) : List SqlArg :=
  rows.flatMap rowArgs

end Ohlcv

/-! ## Candle aggregation (`core/ohlcv.js`, both versions) -/

/-- A `CandleInput` as pushed into the OHLCV batch queue.  Pool ids are the
numeric database ids; `vol_zig`/`trade_inc` may be absent (the code guards
them with `|| 0`), `liquidity_zig` may be absent (guarded with `?? null` /
`!= null`). -/
structure CandleInput where
  pool_id : Nat
  bucket_start : String
  price : ℚ
  vol_zig : Option ℚ
  trade_inc : Option ℚ
  liquidity_zig : Option ℚ
deriving DecidableEq, Repr

/-- An aggregated OHLCV row. -/
structure CandleRow where
  pool_id : Nat
  bucket_start : String
  openPx : ℚ
  high : ℚ
  low : ℚ
  close : ℚ
  volume_zig : ℚ
  trade_count : ℚ
  liquidity_zig : Option ℚ
deriving DecidableEq, Repr

attribute [ext] CandleRow

/-- `x || 0` on a possibly-absent finite number. -/
def jsOrZeroQ (v : Option ℚ) : ℚ :=
  v.getD 0

/-- The grouping key `` `${it.pool_id}__${it.bucket_start}` ``. -/
def candleKeyP (pr : Nat × String) : String :=
  natToStr pr.1 ++ "__" ++ pr.2

def pairOf (it : CandleInput) : Nat × String :=
  (it.pool_id, it.bucket_start)

theorem candleKeyP_injective : Function.Injective candleKeyP := by
  intro pr pr' h
  unfold candleKeyP natToStr at h
  have hdata : natToChars pr.1 ++ '_' :: '_' :: pr.2.data
      = natToChars pr'.1 ++ '_' :: '_' :: pr'.2.data := by
    have := congrArg String.data h
    simpa [String.data_append] using this
  obtain ⟨h1, h2⟩ := digits_underscore_split _ _ _ _
    (natToChars_isDigit pr.1) (natToChars_isDigit pr'.1) hdata
  have hpool : pr.1 = pr'.1 := natToChars_injective h1
  have hbucket : pr.2 = pr'.2 := by
    exact String.ext (List.cons.inj h2).2
  exact Prod.ext hpool hbucket

namespace Ohlcv

/-- First trade in a candle (`core/ohlcv.js`, continuity version, the
`!row` branch of `aggregateBatch`). -/
def aggInit (it : CandleInput) : CandleRow :=
  { pool_id := it.pool_id
    bucket_start := it.bucket_start
    openPx := it.price
    high := it.price
    low := it.price
    close := it.price
    volume_zig := jsOrZeroQ it.vol_zig
    trade_count := jsOrZeroQ it.trade_inc
    liquidity_zig := it.liquidity_zig }

/-- Subsequent trade in the same candle (the `else` branch). -/
def aggUpdate (r : CandleRow) (it : CandleInput) : CandleRow :=
  { r with
    high := if r.high < it.price then it.price else r.high
    low := if it.price < r.low then it.price else r.low
    close := it.price
    volume_zig := r.volume_zig + jsOrZeroQ it.vol_zig
    trade_count := r.trade_count + jsOrZeroQ it.trade_inc
    liquidity_zig := match it.liquidity_zig with
      | some l => some l
      | none => r.liquidity_zig }

/-- One step of the `for (const it of items)` loop over the insertion-ordered
`Map`. -/
def aggStep (m : List (String × CandleRow)) (it : CandleInput) :
    List (String × CandleRow) :=
  let k := candleKeyP (pairOf it)
  if m.any (fun e => e.1 == k) then
    m.map (fun e => if e.1 == k then (e.1, aggUpdate e.2 it) else e)
  else
    m ++ [(k, aggInit it)]

/-- `aggregateBatch` — aggregate items in the batch to one row per
`(pool_id, bucket_start)`. -/
def aggregateBatch (items : List CandleInput) : List CandleRow :=
  (items.foldl aggStep []).map Prod.snd

end Ohlcv

namespace OhlcvPlain

/-- First trade in a candle (`core/ohlcv.js`, plain version, the `!row`
branch of `aggregateBatch`). -/
def aggInit (it : CandleInput) : CandleRow :=
  { pool_id := it.pool_id
    bucket_start := it.bucket_start
    openPx := it.price
    high := it.price
    low := it.price
    close := it.price
    volume_zig := jsOrZeroQ it.vol_zig
    trade_count := jsOrZeroQ it.trade_inc
    liquidity_zig := it.liquidity_zig }

/-- Subsequent trade in the same candle (the `else` branch). -/
def aggUpdate (r : CandleRow) (it : CandleInput) : CandleRow :=
  { r with
    high := if r.high < it.price then it.price else r.high
    low := if it.price < r.low then it.price else r.low
    close := it.price
    volume_zig := r.volume_zig + jsOrZeroQ it.vol_zig
    trade_count := r.trade_count + jsOrZeroQ it.trade_inc
    liquidity_zig := match it.liquidity_zig with
      | some l => some l
      | none => r.liquidity_zig }

/-- One step of the `for (const it of items)` loop over the insertion-ordered
`Map`. -/
def aggStep (m : List (String × CandleRow)) (it : CandleInput) :
    List (String × CandleRow) :=
  let k := candleKeyP (pairOf it)
  if m.any (fun e => e.1 == k) then
    m.map (fun e => if e.1 == k then (e.1, aggUpdate e.2 it) else e)
  else
    m ++ [(k, aggInit it)]

/-- `aggregateBatch` of the plain (no-continuity) `core/ohlcv.js`. -/
def aggregateBatch (items : List CandleInput) : List CandleRow :=
  (items.foldl aggStep []).map Prod.snd

end OhlcvPlain

/-! ## Specification-side aggregation (spec §4.2, steps 1–2)

`specCandle` follows the spec's words: open is the first input's price, high
the max, low the min, close the last price in push order, volume and trade
count the sums of the increments, liquidity the newest non-null value. -/

def groupOf (items : List CandleInput) (pr : Nat × String) : List CandleInput :=
  items.filter (fun it => pairOf it == pr)

def dedupPairs (items : List CandleInput) : List (Nat × String) :=
  items.foldl (fun acc it => if pairOf it ∈ acc then acc else acc ++ [pairOf it]) []

def specCandle (pr : Nat × String) (g : List CandleInput) : CandleRow :=
  match g with
  | [] =>
    { pool_id := pr.1, bucket_start := pr.2, openPx := 0, high := 0, low := 0,
      close := 0, volume_zig := 0, trade_count := 0, liquidity_zig := none }
  | x :: rest =>
    { pool_id := pr.1
      bucket_start := pr.2
      openPx := x.price
      high := rest.foldl (fun a it => max a it.price) x.price
      low := rest.foldl (fun a it => min a it.price) x.price
      close := (rest.getLastD x).price
      volume_zig := jsOrZeroQ x.vol_zig + (rest.map (fun it => jsOrZeroQ it.vol_zig)).sum
      trade_count := jsOrZeroQ x.trade_inc + (rest.map (fun it => jsOrZeroQ it.trade_inc)).sum
      liquidity_zig := ((x :: rest).filterMap (fun it => it.liquidity_zig)).getLast? }

def specAggregate (items : List CandleInput) : List CandleRow :=
  (dedupPairs items).map (fun pr => specCandle pr (groupOf items pr))

theorem dedupPairs_concat (items : List CandleInput) (it : CandleInput) :
    dedupPairs (items ++ [it]) =
      if pairOf it ∈ dedupPairs items then dedupPairs items
      else dedupPairs items ++ [pairOf it] := by
  unfold dedupPairs
  rw [List.foldl_append]
  rfl

theorem groupOf_concat (items : List CandleInput) (it : CandleInput)
    (pr : Nat × String) :
    groupOf (items ++ [it]) pr =
      groupOf items pr ++ if pairOf it = pr then [it] else [] := by
  unfold groupOf
  rw [List.filter_append]
  congr 1
  by_cases h : pairOf it = pr
  · simp [List.filter, h]
  · have hb : (pairOf it == pr) = false := by simp [h]
    simp [List.filter, hb, h]

theorem mem_dedup_foldl (pr : Nat × String) :
    ∀ (items : List CandleInput) (acc : List (Nat × String)),
      pr ∈ items.foldl
          (fun acc it => if pairOf it ∈ acc then acc else acc ++ [pairOf it]) acc ↔
        pr ∈ acc ∨ ∃ x ∈ items, pairOf x = pr := by
  intro items
  induction items with
  | nil => intro acc; simp
  | cons y ys ih =>
    intro acc
    rw [List.foldl_cons, ih]
    have hstep : pr ∈ (if pairOf y ∈ acc then acc else acc ++ [pairOf y]) ↔
        pr ∈ acc ∨ pairOf y = pr := by
      by_cases hy : pairOf y ∈ acc
      · simp only [if_pos hy]
        constructor
        · exact Or.inl
        · rintro (h | h)
          · exact h
          · exact h ▸ hy
      · simp [if_neg hy, or_comm, eq_comm]
    rw [hstep]
    simp only [List.mem_cons]
    constructor
    · rintro ((h | h) | ⟨x, hx, hpr⟩)
      · exact Or.inl h
      · exact Or.inr ⟨y, Or.inl rfl, h⟩
      · exact Or.inr ⟨x, Or.inr hx, hpr⟩
    · rintro (h | ⟨x, (rfl | hx), hpr⟩)
      · exact Or.inl (Or.inl h)
      · exact Or.inl (Or.inr hpr)
      · exact Or.inr ⟨x, hx, hpr⟩

theorem mem_dedupPairs (items : List CandleInput) (pr : Nat × String) :
    pr ∈ dedupPairs items ↔ ∃ x ∈ items, pairOf x = pr := by
  unfold dedupPairs
  rw [mem_dedup_foldl]
  simp

theorem groupOf_ne_nil (items : List CandleInput) (pr : Nat × String)
    (h : pr ∈ dedupPairs items) : groupOf items pr ≠ [] := by
  rw [mem_dedupPairs] at h
  obtain ⟨x, hx, hpr⟩ := h
  unfold groupOf
  intro hcontra
  have : x ∈ items.filter (fun it => pairOf it == pr) := by
    rw [List.mem_filter]
    exact ⟨hx, by simp [hpr]⟩
  rw [hcontra] at this
  simp at this

theorem groupOf_eq_nil (items : List CandleInput) (pr : Nat × String)
    (h : pr ∉ dedupPairs items) : groupOf items pr = [] := by
  rw [mem_dedupPairs] at h
  unfold groupOf
  rw [List.filter_eq_nil_iff]
  intro x hx
  simp only [beq_iff_eq]
  exact fun hpr => h ⟨x, hx, hpr⟩

theorem if_lt_max (a b : ℚ) : (if a < b then b else a) = max a b := by
  rcases le_or_lt b a with h | h
  · rw [if_neg (not_lt.2 h), max_eq_left h]
  · rw [if_pos h, max_eq_right h.le]

theorem if_lt_min (a b : ℚ) : (if b < a then b else a) = min a b := by
  rcases le_or_lt a b with h | h
  · rw [if_neg (not_lt.2 h), min_eq_left h]
  · rw [if_pos h, min_eq_right h.le]

theorem getLastD_concat_eq {α : Type} (l : List α) (a : α) :
    ∀ d, (l ++ [a]).getLastD d = a := by
  induction l with
  | nil => intro d; rfl
  | cons x t ih =>
    intro d
    rw [List.cons_append, List.getLastD_cons]
    exact ih x

theorem specCandle_concat (pr : Nat × String) (g : List CandleInput)
    (it : CandleInput) (hg : g ≠ []) :
    specCandle pr (g ++ [it]) = Ohlcv.aggUpdate (specCandle pr g) it := by
  match g with
  | [] => exact absurd rfl hg
  | x :: rest =>
    show specCandle pr (x :: (rest ++ [it])) = _
    apply CandleRow.ext <;> simp only [specCandle, Ohlcv.aggUpdate]
    · rw [List.foldl_append, List.foldl_cons, List.foldl_nil, if_lt_max]
    · rw [List.foldl_append, List.foldl_cons, List.foldl_nil, if_lt_min]
    · rw [getLastD_concat_eq]
    · rw [List.map_append, List.sum_append]
      simp only [List.map_cons, List.map_nil, List.sum_cons, List.sum_nil]
      ring
    · rw [List.map_append, List.sum_append]
      simp only [List.map_cons, List.map_nil, List.sum_cons, List.sum_nil]
      ring
    · have hsplit : (x :: (rest ++ [it])) = (x :: rest) ++ [it] := by simp
      rw [hsplit, List.filterMap_append]
      cases hliq : it.liquidity_zig with
      | some l =>
        have : List.filterMap (fun it => it.liquidity_zig) [it] = [l] := by
          simp [List.filterMap, hliq]
        rw [this, List.getLast?_concat]
      | none =>
        have : List.filterMap (fun it => it.liquidity_zig) [it] = [] := by
          simp [List.filterMap, hliq]
        rw [this, List.append_nil]

theorem specCandle_single (it : CandleInput) :
    specCandle (pairOf it) [it] = Ohlcv.aggInit it := by
  cases hliq : it.liquidity_zig with
  | some l =>
    apply CandleRow.ext <;>
      simp [specCandle, Ohlcv.aggInit, pairOf, List.filterMap_cons, hliq]
  | none =>
    apply CandleRow.ext <;>
      simp [specCandle, Ohlcv.aggInit, pairOf, List.filterMap_cons, hliq]

theorem aggStep_mem (m : List (String × CandleRow)) (it : CandleInput)
    (h : (m.any (fun e => e.1 == candleKeyP (pairOf it))) = true) :
    Ohlcv.aggStep m it
      = m.map (fun e =>
          if e.1 == candleKeyP (pairOf it) then (e.1, Ohlcv.aggUpdate e.2 it)
          else e) := by
  simp [Ohlcv.aggStep, h]

theorem aggStep_new (m : List (String × CandleRow)) (it : CandleInput)
    (h : (m.any (fun e => e.1 == candleKeyP (pairOf it))) = false) :
    Ohlcv.aggStep m it = m ++ [(candleKeyP (pairOf it), Ohlcv.aggInit it)] := by
  simp [Ohlcv.aggStep, h]

theorem aggFold_eq (items : List CandleInput) :
    items.foldl Ohlcv.aggStep [] =
      (dedupPairs items).map
        (fun pr => (candleKeyP pr, specCandle pr (groupOf items pr))) := by
  induction items using List.reverseRecOn with
  | nil => rfl
  | append_singleton its it ih =>
    rw [List.foldl_append, List.foldl_cons, List.foldl_nil, ih, dedupPairs_concat]
    have hany : (((dedupPairs its).map
          (fun pr => (candleKeyP pr, specCandle pr (groupOf its pr)))).any
          (fun e => e.1 == candleKeyP (pairOf it)) = true) ↔
        pairOf it ∈ dedupPairs its := by
      rw [List.any_eq_true]
      constructor
      · rintro ⟨e, he, hbeq⟩
        obtain ⟨pr, hpr, rfl⟩ := List.mem_map.mp he
        have := candleKeyP_injective (beq_iff_eq.mp hbeq)
        exact this ▸ hpr
      · intro h
        refine ⟨(candleKeyP (pairOf it),
          specCandle (pairOf it) (groupOf its (pairOf it))), ?_, by simp⟩
        exact List.mem_map_of_mem _ h
    by_cases hmem : pairOf it ∈ dedupPairs its
    · rw [if_pos hmem, aggStep_mem _ _ (hany.mpr hmem), List.map_map]
      apply List.map_congr_left
      intro pr hpr
      show (if candleKeyP pr == candleKeyP (pairOf it)
            then (candleKeyP pr, Ohlcv.aggUpdate (specCandle pr (groupOf its pr)) it)
            else (candleKeyP pr, specCandle pr (groupOf its pr)))
          = (candleKeyP pr, specCandle pr (groupOf (its ++ [it]) pr))
      by_cases hpreq : pr = pairOf it
      · have hbeq : (candleKeyP pr == candleKeyP (pairOf it)) = true := by
          rw [hpreq]
          simp
        rw [if_pos hbeq]
        have hgrp : groupOf (its ++ [it]) pr = groupOf its pr ++ [it] := by
          rw [groupOf_concat, if_pos hpreq.symm]
        rw [hgrp, specCandle_concat _ _ _
          (groupOf_ne_nil its pr (hpreq.symm ▸ hmem))]
      · have hbeq : (candleKeyP pr == candleKeyP (pairOf it)) = false := by
          rw [beq_eq_false_iff_ne]
          exact fun h => hpreq (candleKeyP_injective h)
        rw [if_neg (by simp [hbeq])]
        have hgrp : groupOf (its ++ [it]) pr = groupOf its pr := by
          rw [groupOf_concat, if_neg (fun h => hpreq h.symm), List.append_nil]
        rw [hgrp]
    · rw [if_neg hmem, aggStep_new _ _ (by rw [← Bool.not_eq_true, hany]; exact hmem),
        List.map_append]
      congr 1
      · apply List.map_congr_left
        intro pr hpr
        show (candleKeyP pr, specCandle pr (groupOf its pr))
            = (candleKeyP pr, specCandle pr (groupOf (its ++ [it]) pr))
        have hpreq : pairOf it ≠ pr := fun h => hmem (h ▸ hpr)
        have hgrp : groupOf (its ++ [it]) pr = groupOf its pr := by
          rw [groupOf_concat, if_neg hpreq, List.append_nil]
        rw [hgrp]
      · simp only [List.map_cons, List.map_nil]
        have hgrp : groupOf (its ++ [it]) (pairOf it) = [it] := by
          rw [groupOf_concat, if_pos rfl, groupOf_eq_nil its (pairOf it) hmem,
            List.nil_append]
        rw [hgrp, specCandle_single]

/-- `aggregateBatch` computes, for each first-occurrence-ordered distinct
`(pool id, bucket start)` pair, exactly the spec-described candle of that
group. -/
theorem aggregateBatch_eq_specAggregate (items : List CandleInput) :
    Ohlcv.aggregateBatch items = specAggregate items := by
  unfold Ohlcv.aggregateBatch specAggregate
  rw [aggFold_eq, List.map_map]
  rfl

/-- **C2.** Batch aggregation produces exactly one row per
`(pool id, bucket start)` group — one row for each distinct pair, in first
occurrence order, with open the first input's price, high the maximum, low
the minimum, close the last price in push order, volume and trade count the
sums of the increments (`specAggregate` states exactly this); in particular
the three-input scenario of the spec yields the single candle
`open=10, high=12, low=9, close=9, trade_count=3`. -/
theorem claim_C2_aggregate_batch :
    (∀ items, Ohlcv.aggregateBatch items = specAggregate items) ∧
    Ohlcv.aggregateBatch
        [⟨1, "T0", 10, none, some 1, none⟩,
         ⟨1, "T0", 12, none, some 1, none⟩,
         ⟨1, "T0", 9, none, some 1, none⟩]
      = [⟨1, "T0", 10, 12, 9, 9, 0, 3, none⟩] := by
  refine ⟨aggregateBatch_eq_specAggregate, ?_⟩
  norm_num [Ohlcv.aggregateBatch, Ohlcv.aggStep, Ohlcv.aggInit, Ohlcv.aggUpdate,
    pairOf, jsOrZeroQ]

/-- **C10.** The two shipped versions of `aggregateBatch` (the
continuity-enabled `core/ohlcv.js` and the plain one) agree on every input
batch: same rows, same values, same order. -/
theorem claim_C10_aggregate_versions_equal :
    ∀ items, Ohlcv.aggregateBatch items = OhlcvPlain.aggregateBatch items :=
  fun _ => rfl

/-! ## The continuity pass (`core/ohlcv.js`, continuity version, `flushFn`)

The module-level `lastCloseByPool` map, the batch sort, and the
`for (const r of agg)` loop of step 1.5. -/

/-- `lastCloseByPool`: pool-id string ↦ (bucket_start, close). -/
def StateMap : Type := String → Option (String × ℚ)

def emptyState : StateMap := fun _ => none

def stateSet (st : StateMap) (k : String) (v : String × ℚ) : StateMap :=
  fun k' => if k' = k then some v else st k'

/-- `String(r.pool_id ?? '')`. -/
def poolKey (r : CandleRow) : String :=
  natToStr r.pool_id

/-- The sort comparator of `flushFn` step 1.5: ascending by pool-id string,
then by bucket string.  `rowLe a b` holds iff the comparator returns ≤ 0 on
`(a, b)`. -/
def rowLe (a b : CandleRow) : Prop :=
  poolKey a < poolKey b ∨
    (poolKey a = poolKey b ∧
      (a.bucket_start < b.bucket_start ∨ a.bucket_start = b.bucket_start))

instance : DecidableRel rowLe := fun a b => by
  unfold rowLe
  infer_instance

instance : IsTotal CandleRow rowLe := by
  constructor
  intro a b
  rcases lt_trichotomy (poolKey a) (poolKey b) with h | h | h
  · exact Or.inl (Or.inl h)
  · rcases lt_trichotomy a.bucket_start b.bucket_start with h2 | h2 | h2
    · exact Or.inl (Or.inr ⟨h, Or.inl h2⟩)
    · exact Or.inl (Or.inr ⟨h, Or.inr h2⟩)
    · exact Or.inr (Or.inr ⟨h.symm, Or.inl h2⟩)
  · exact Or.inr (Or.inl h)

instance : IsTrans CandleRow rowLe := by
  constructor
  intro a b c hab hbc
  rcases hab with hab | ⟨hab, hab2⟩
  · rcases hbc with hbc | ⟨hbc, _⟩
    · exact Or.inl (hab.trans hbc)
    · exact Or.inl (hbc ▸ hab)
  · rcases hbc with hbc | ⟨hbc, hbc2⟩
    · exact Or.inl (hab ▸ hbc)
    · refine Or.inr ⟨hab.trans hbc, ?_⟩
      rcases hab2 with hab2 | hab2
      · rcases hbc2 with hbc2 | hbc2
        · exact Or.inl (hab2.trans hbc2)
        · exact Or.inl (hbc2 ▸ hab2)
      · rcases hbc2 with hbc2 | hbc2
        · exact Or.inl (hab2 ▸ hbc2)
        · exact Or.inr (hab2.trans hbc2)

/-- `agg.sort(comparator)`.  The comparator never ties on distinct aggregated
rows (their `(pool, bucket)` pairs differ), so the JS engine's sort result is
the unique sorted permutation, here produced by insertion sort. -/
def sortRows (rows : List CandleRow) : List CandleRow :=
  List.insertionSort rowLe rows

/-- One iteration of the continuity loop: if a previous close exists for the
pool and its bucket is strictly earlier, overwrite `open` with the previous
close; high/low are left as the observed extremes. -/
def adjustRow (st : StateMap) (r : CandleRow) : CandleRow :=
  match st (poolKey r) with
  | some prev =>
    if prev.1 < r.bucket_start then { r with openPx := prev.2 } else r
  | none => r

/-- The continuity loop over a list of rows, threading `lastCloseByPool`:
each row is adjusted against the state seen so far, and the state is then
unconditionally set to this row's (bucket, close). -/
def processSeq (st : StateMap) : List CandleRow → StateMap × List CandleRow
  | [] => (st, [])
  | r :: rest =>
    let r' := adjustRow st r
    let st' := stateSet st (poolKey r) (r.bucket_start, r.close)
    let res := processSeq st' rest
    (res.1, r' :: res.2)

/-- `flushFn` on one batch: aggregate, sort, run the continuity pass.
Returns the updated cache and the rows handed to `buildInsertSQL` (the
persisted rows). -/
def flushBatch (st : StateMap) (items : List CandleInput) :
    StateMap × List CandleRow :=
  processSeq st (sortRows (Ohlcv.aggregateBatch items))

/-- A sequence of flushes threading the module-level cache; the second
component is the concatenation of all persisted rows in flush order. -/
def runFlushes (st : StateMap) : List (List CandleInput) → StateMap × List CandleRow
  | [] => (st, [])
  | b :: bs =>
    let f := flushBatch st b
    let rest := runFlushes f.1 bs
    (rest.1, f.2 ++ rest.2)

theorem processSeq_append (l1 l2 : List CandleRow) :
    ∀ st : StateMap,
      processSeq st (l1 ++ l2)
        = ((processSeq (processSeq st l1).1 l2).1,
           (processSeq st l1).2 ++ (processSeq (processSeq st l1).1 l2).2) := by
  induction l1 with
  | nil => intro st; simp [processSeq]
  | cons r rest ih =>
    intro st
    simp only [List.cons_append, processSeq, List.append_eq]
    rw [ih]

theorem processSeq_state (k : String) :
    ∀ (rows : List CandleRow) (st : StateMap),
      (processSeq st rows).1 k
        = match (rows.filter (fun r => poolKey r == k)).getLast? with
          | some r => some (r.bucket_start, r.close)
          | none => st k := by
  intro rows
  induction rows with
  | nil => intro st; rfl
  | cons r rest ih =>
    intro st
    show (processSeq (stateSet st (poolKey r) (r.bucket_start, r.close)) rest).1 k = _
    rw [ih]
    by_cases hk : (poolKey r == k) = true
    · have hfil : (r :: rest).filter (fun r => poolKey r == k)
          = r :: rest.filter (fun r => poolKey r == k) := by
        simp [List.filter_cons, hk]
      rw [hfil]
      cases hrest : rest.filter (fun r => poolKey r == k) with
      | nil =>
        simp only [hrest, List.getLast?_nil, List.getLast?_singleton]
        unfold stateSet
        rw [if_pos (beq_iff_eq.mp hk).symm]
      | cons x xs =>
        cases hy : (x :: xs).getLast? with
        | none => simp at hy
        | some y => rw [List.getLast?_cons_cons, hy]
    · have hfil : (r :: rest).filter (fun r => poolKey r == k)
          = rest.filter (fun r => poolKey r == k) := by
        simp [List.filter_cons, hk]
      rw [hfil]
      have hst : stateSet st (poolKey r) (r.bucket_start, r.close) k = st k := by
        unfold stateSet
        rw [if_neg (fun h => hk (beq_iff_eq.mpr h.symm))]
      rw [hst]

theorem processSeq_trace_length (rows : List CandleRow) :
    ∀ st : StateMap, (processSeq st rows).2.length = rows.length := by
  induction rows with
  | nil => intro st; rfl
  | cons r rest ih =>
    intro st
    show (adjustRow st r :: (processSeq _ rest).2).length = _
    rw [List.length_cons, ih]
    rfl

theorem adjustRow_fields (st : StateMap) (r : CandleRow) :
    (adjustRow st r).pool_id = r.pool_id ∧
    (adjustRow st r).bucket_start = r.bucket_start ∧
    (adjustRow st r).high = r.high ∧
    (adjustRow st r).low = r.low ∧
    (adjustRow st r).close = r.close ∧
    (adjustRow st r).volume_zig = r.volume_zig ∧
    (adjustRow st r).trade_count = r.trade_count ∧
    (adjustRow st r).liquidity_zig = r.liquidity_zig := by
  cases hst : st (poolKey r) with
  | none => simp [adjustRow, hst]
  | some prev =>
    by_cases h : prev.1 < r.bucket_start
    · simp [adjustRow, hst, h]
    · simp [adjustRow, hst, h]

theorem runFlushes_eq_processSeq :
    ∀ (batches : List (List CandleInput)) (st : StateMap),
      runFlushes st batches
        = processSeq st
            ((batches.map (fun b => sortRows (Ohlcv.aggregateBatch b))).flatten) := by
  intro batches
  induction batches with
  | nil => intro st; rfl
  | cons b bs ih =>
    intro st
    show ((runFlushes (flushBatch st b).1 bs).1,
        (flushBatch st b).2 ++ (runFlushes (flushBatch st b).1 bs).2) = _
    rw [List.map_cons, List.flatten_cons]
    rw [processSeq_append]
    rw [ih]
    rfl

theorem processSeq_snd_append (st : StateMap) (l1 l2 : List CandleRow) :
    (processSeq st (l1 ++ l2)).2
      = (processSeq st l1).2 ++ (processSeq (processSeq st l1).1 l2).2 := by
  rw [processSeq_append]

theorem processSeq_snd_cons (st : StateMap) (r : CandleRow)
    (rest : List CandleRow) :
    (processSeq st (r :: rest)).2
      = adjustRow st r
        :: (processSeq (stateSet st (poolKey r) (r.bucket_start, r.close)) rest).2 :=
  rfl

/-- If `r1` is the last row of pool `p` processed before `r2` (no row of that
pool in between) and `r1`'s bucket is strictly earlier, then the persisted
row for `r2` is `r2` with only its open overwritten by `r1`'s close. -/
theorem continuity_adjacent (st : StateMap) (pre mid post : List CandleRow)
    (r1 r2 : CandleRow)
    (hmid : ∀ r ∈ mid, poolKey r ≠ poolKey r1)
    (hpool : poolKey r2 = poolKey r1)
    (hbuck : r1.bucket_start < r2.bucket_start) :
    ∃ t1 t2 tpre tmid tpost,
      (processSeq st (pre ++ r1 :: (mid ++ r2 :: post))).2
        = tpre ++ t1 :: (tmid ++ t2 :: tpost) ∧
      tpre.length = pre.length ∧ tmid.length = mid.length ∧
      t2.openPx = r1.close ∧ t1.close = r1.close ∧
      t2.high = r2.high ∧ t2.low = r2.low ∧ t2.close = r2.close := by
  set s1 := (processSeq st pre).1 with hs1
  set st2 := stateSet s1 (poolKey r1) (r1.bucket_start, r1.close) with hst2
  set s3 := (processSeq st2 mid).1 with hs3
  have hs3k : s3 (poolKey r1) = some (r1.bucket_start, r1.close) := by
    rw [hs3, processSeq_state]
    have hfil : mid.filter (fun r => poolKey r == poolKey r1) = [] := by
      rw [List.filter_eq_nil_iff]
      intro r hr
      simpa using hmid r hr
    rw [hfil]
    show st2 (poolKey r1) = _
    rw [hst2]
    unfold stateSet
    rw [if_pos rfl]
  have hadj : adjustRow s3 r2 = { r2 with openPx := r1.close } := by
    unfold adjustRow
    rw [hpool, hs3k]
    show (if r1.bucket_start < r2.bucket_start
        then { r2 with openPx := r1.close } else r2) = _
    rw [if_pos hbuck]
  refine ⟨adjustRow s1 r1, { r2 with openPx := r1.close },
    (processSeq st pre).2, (processSeq st2 mid).2,
    (processSeq (stateSet s3 (poolKey r2) (r2.bucket_start, r2.close)) post).2,
    ?_, ?_, ?_, rfl, ?_, rfl, rfl, rfl⟩
  · rw [processSeq_snd_append, processSeq_snd_cons, processSeq_snd_append,
      processSeq_snd_cons, hadj]
  · exact processSeq_trace_length pre st
  · exact processSeq_trace_length mid st2
  · exact (adjustRow_fields s1 r1).2.2.2.2.1

theorem natToStr_injective : Function.Injective natToStr := by
  intro m n h
  exact natToChars_injective (congrArg String.data h)

theorem pairwise_getLast {α : Type} (R : α → α → Prop) :
    ∀ (l : List α), List.Pairwise R l → ∀ (x : α), x ∈ l → ∀ (hl : l ≠ []),
      x = l.getLast hl ∨ R x (l.getLast hl) := by
  intro l
  induction l with
  | nil =>
    intro _ x hx
    exact absurd hx (List.not_mem_nil x)
  | cons a t ih =>
    intro h x hx hl
    cases t with
    | nil =>
      left
      have : x = a := by simpa using hx
      simpa [List.getLast] using this
    | cons b t2 =>
      have hne : b :: t2 ≠ [] := by simp
      have hgl : (a :: b :: t2).getLast hl = (b :: t2).getLast hne :=
        List.getLast_cons hne
      rcases List.mem_cons.mp hx with rfl | hx2
      · right
        rw [hgl]
        exact (List.pairwise_cons.mp h).1 _ (List.getLast_mem hne)
      · rcases ih (List.pairwise_cons.mp h).2 x hx2 hne with heq | hR
        · left
          rw [hgl, ← heq]
        · right
          rw [hgl]
          exact hR

/-- **C1 (counterexample).** Three singleton flushes of pool 1, buckets
T0 < T1 < T2, closes 1, 2, 3.  Bucket T0 (B1) is flushed before bucket T2
(B2) and starts strictly earlier, yet the persisted row for T2 has open 2
(the close of T1, the most recent bucket), not 1 = close of T0: the claim's
"for every two buckets B1, B2" fails for non-adjacent pairs. -/
theorem claim_C1_counterexample :
    ((runFlushes emptyState
        [[⟨1, "T0", 1, none, none, none⟩],
         [⟨1, "T1", 2, none, none, none⟩],
         [⟨1, "T2", 3, none, none, none⟩]]).2.map
      (fun r => (r.bucket_start, r.openPx, r.close)))
      = [("T0", 1, 1), ("T1", 1, 2), ("T2", 2, 3)] ∧ ((2 : ℚ) ≠ 1) := by
  constructor
  · norm_num [runFlushes, flushBatch, Ohlcv.aggregateBatch, Ohlcv.aggStep,
      Ohlcv.aggInit, Ohlcv.aggUpdate, pairOf, jsOrZeroQ, sortRows,
      List.insertionSort, List.orderedInsert, processSeq, adjustRow, stateSet,
      poolKey, emptyState]
    all_goals decide
  · norm_num

/-- **C1 (amended).** Candle continuity holds between a bucket and the row
for that pool processed immediately before it: a run of flushes is the
continuity pass over the concatenated sorted per-flush aggregates, and if
`r1` is the last row of its pool flushed before `r2` (same flush or an
earlier one) with a strictly earlier bucket start, the persisted row for
`r2` has open = `r1.close` while its high/low/close are exactly the
aggregated extremes of `r2`'s own inputs; the spec's two-flush scenario
chains open = 9 onto the T1 candle. -/
theorem claim_C1_amended_continuity :
    (∀ (st : StateMap) (batches : List (List CandleInput)),
      runFlushes st batches
        = processSeq st
            ((batches.map (fun b => sortRows (Ohlcv.aggregateBatch b))).flatten)) ∧
    (∀ (st : StateMap) (pre mid post : List CandleRow) (r1 r2 : CandleRow),
      (∀ r ∈ mid, poolKey r ≠ poolKey r1) →
      poolKey r2 = poolKey r1 →
      r1.bucket_start < r2.bucket_start →
      ∃ t1 t2 tpre tmid tpost,
        (processSeq st (pre ++ r1 :: (mid ++ r2 :: post))).2
          = tpre ++ t1 :: (tmid ++ t2 :: tpost) ∧
        tpre.length = pre.length ∧ tmid.length = mid.length ∧
        t2.openPx = r1.close ∧ t1.close = r1.close ∧
        t2.high = r2.high ∧ t2.low = r2.low ∧ t2.close = r2.close) ∧
    (runFlushes emptyState
        [[⟨1, "T0", 10, none, some 1, none⟩,
          ⟨1, "T0", 12, none, some 1, none⟩,
          ⟨1, "T0", 9, none, some 1, none⟩],
         [⟨1, "T1", 20, none, some 1, none⟩]]).2
      = [⟨1, "T0", 10, 12, 9, 9, 0, 3, none⟩,
         ⟨1, "T1", 9, 20, 20, 20, 0, 1, none⟩] := by
  refine ⟨fun st batches => runFlushes_eq_processSeq batches st,
    fun st pre mid post r1 r2 hmid hpool hbuck =>
      continuity_adjacent st pre mid post r1 r2 hmid hpool hbuck, ?_⟩
  norm_num [runFlushes, flushBatch, Ohlcv.aggregateBatch, Ohlcv.aggStep,
    Ohlcv.aggInit, Ohlcv.aggUpdate, pairOf, jsOrZeroQ, sortRows,
    List.insertionSort, List.orderedInsert, processSeq, adjustRow, stateSet,
    poolKey, emptyState]
  all_goals decide

/-- **C1 (witness).** The amended continuity theorem applied to a concrete
pair of adjacent rows of pool 1 (buckets T0 < T1). -/
theorem claim_C1_amended_continuity_witness :
    ∃ t1 t2 tpre tmid tpost,
      (processSeq emptyState
          ([] ++ (⟨1, "T0", 9, 9, 9, 9, 0, 1, none⟩ : CandleRow)
            :: ([] ++ (⟨1, "T1", 20, 20, 20, 20, 0, 1, none⟩ : CandleRow) :: []))).2
        = tpre ++ t1 :: (tmid ++ t2 :: tpost) ∧
      tpre.length = ([] : List CandleRow).length ∧
      tmid.length = ([] : List CandleRow).length ∧
      t2.openPx = (⟨1, "T0", 9, 9, 9, 9, 0, 1, none⟩ : CandleRow).close ∧
      t1.close = (⟨1, "T0", 9, 9, 9, 9, 0, 1, none⟩ : CandleRow).close ∧
      t2.high = (⟨1, "T1", 20, 20, 20, 20, 0, 1, none⟩ : CandleRow).high ∧
      t2.low = (⟨1, "T1", 20, 20, 20, 20, 0, 1, none⟩ : CandleRow).low ∧
      t2.close = (⟨1, "T1", 20, 20, 20, 20, 0, 1, none⟩ : CandleRow).close :=
  claim_C1_amended_continuity.2.1 emptyState [] [] []
    ⟨1, "T0", 9, 9, 9, 9, 0, 1, none⟩ ⟨1, "T1", 20, 20, 20, 20, 0, 1, none⟩
    (by simp) rfl
    (by
      show ("T0" : String) < "T1"
      rw [String.lt_iff_toList_lt]
      decide)

/-- **C3 (counterexample).** With the cache at pool 1 ↦ ("T1", 9), flushing
a stale batch containing only the older bucket "T0" rewrites the cache to
("T0", 5): the recorded bucket start moves backwards and the pair does not
stay unchanged, contradicting the claim. -/
theorem claim_C3_counterexample :
    (flushBatch (stateSet emptyState (natToStr 1) ("T1", 9))
        [⟨1, "T0", 5, none, none, none⟩]).1 (natToStr 1)
      = some ("T0", 5) ∧ (("T0" : String) < "T1") := by
  constructor
  · have h1 : ¬ (("T1" : String) < "T0") := by
      rw [String.lt_iff_toList_lt]
      decide
    norm_num [flushBatch, Ohlcv.aggregateBatch, Ohlcv.aggStep, Ohlcv.aggInit,
      pairOf, jsOrZeroQ, sortRows, List.insertionSort, List.orderedInsert,
      processSeq, adjustRow, stateSet, poolKey, emptyState, h1]
  · rw [String.lt_iff_toList_lt]
    decide

/-- **C3 (amended).** After a flush, the ContinuityState entry of a pool
with no aggregated rows in the batch is unchanged, while a pool with rows is
set unconditionally to the (bucket start, close) of its latest-bucket row of
this batch — even when that bucket is at or before the recorded one, so the
recorded bucket start can move backwards on a stale batch. -/
theorem claim_C3_state_update :
    ∀ (st : StateMap) (items : List CandleInput) (p : Nat),
      ((Ohlcv.aggregateBatch items).filter (fun r => r.pool_id == p) = [] →
        (flushBatch st items).1 (natToStr p) = st (natToStr p)) ∧
      ((Ohlcv.aggregateBatch items).filter (fun r => r.pool_id == p) ≠ [] →
        ∃ r ∈ (Ohlcv.aggregateBatch items).filter (fun r => r.pool_id == p),
          (flushBatch st items).1 (natToStr p) = some (r.bucket_start, r.close) ∧
          ∀ r' ∈ (Ohlcv.aggregateBatch items).filter (fun r => r.pool_id == p),
            r'.bucket_start ≤ r.bucket_start) := by
  intro st items p
  have hpred : ∀ r : CandleRow, (poolKey r == natToStr p) = (r.pool_id == p) := by
    intro r
    by_cases h : r.pool_id = p
    · simp [poolKey, h]
    · have hne : natToStr r.pool_id ≠ natToStr p := fun hh => h (natToStr_injective hh)
      simp [poolKey, h, hne]
  have hfilter_eq : ∀ l : List CandleRow,
      l.filter (fun r => poolKey r == natToStr p)
        = l.filter (fun r => r.pool_id == p) := by
    intro l
    apply List.filter_congr
    intro r _
    exact hpred r
  have hstate : (flushBatch st items).1 (natToStr p)
      = match ((sortRows (Ohlcv.aggregateBatch items)).filter
            (fun r => r.pool_id == p)).getLast? with
        | some r => some (r.bucket_start, r.close)
        | none => st (natToStr p) := by
    show (processSeq st (sortRows (Ohlcv.aggregateBatch items))).1 (natToStr p) = _
    rw [processSeq_state, hfilter_eq]
  have hperm : List.Perm
      ((sortRows (Ohlcv.aggregateBatch items)).filter (fun r => r.pool_id == p))
      ((Ohlcv.aggregateBatch items).filter (fun r => r.pool_id == p)) :=
    (List.perm_insertionSort rowLe (Ohlcv.aggregateBatch items)).filter _
  constructor
  · intro hnil
    have hsnil : (sortRows (Ohlcv.aggregateBatch items)).filter
        (fun r => r.pool_id == p) = [] :=
      List.Perm.eq_nil (hnil ▸ hperm)
    rw [hstate, hsnil]
    rfl
  · intro hne
    have hsne : (sortRows (Ohlcv.aggregateBatch items)).filter
        (fun r => r.pool_id == p) ≠ [] := by
      intro hcontra
      exact hne (List.Perm.eq_nil (hcontra ▸ hperm.symm))
    have hlast? : ((sortRows (Ohlcv.aggregateBatch items)).filter
          (fun r => r.pool_id == p)).getLast?
        = some (((sortRows (Ohlcv.aggregateBatch items)).filter
            (fun r => r.pool_id == p)).getLast hsne) :=
      List.getLast?_eq_getLast _ hsne
    refine ⟨((sortRows (Ohlcv.aggregateBatch items)).filter
      (fun r => r.pool_id == p)).getLast hsne, ?_, ?_, ?_⟩
    · exact hperm.mem_iff.mp (List.getLast_mem hsne)
    · rw [hstate, hlast?]
    · intro r' hr'
      have hsorted : List.Sorted rowLe (sortRows (Ohlcv.aggregateBatch items)) :=
        List.sorted_insertionSort rowLe _
      have hpair : List.Pairwise rowLe
          ((sortRows (Ohlcv.aggregateBatch items)).filter
            (fun r => r.pool_id == p)) :=
        hsorted.sublist (List.filter_sublist _)
      have hpk : ∀ x ∈ (sortRows (Ohlcv.aggregateBatch items)).filter
          (fun r => r.pool_id == p), poolKey x = natToStr p := by
        intro x hx
        have hx2 := (List.mem_filter.mp hx).2
        have hx3 : x.pool_id = p := by simpa using hx2
        simp [poolKey, hx3]
      rcases pairwise_getLast rowLe _ hpair r' (hperm.mem_iff.mpr hr') hsne
        with heq | hle
      · rw [heq]
      · have h1 := hpk r' (hperm.mem_iff.mpr hr')
        have h2 := hpk _ (List.getLast_mem hsne)
        rcases hle with hlt | ⟨_, hb⟩
        · exfalso
          rw [h1, h2] at hlt
          exact lt_irrefl _ hlt
        · rcases hb with hb | hb
          · exact le_of_lt hb
          · exact le_of_eq hb

/-- **C3 (witness).** The amended state-update theorem at a concrete stale
batch: pool 1's entry is rewritten to the batch's own latest bucket. -/
theorem claim_C3_state_update_witness :
    ∃ r ∈ (Ohlcv.aggregateBatch
        [⟨1, "T0", 5, none, none, none⟩]).filter (fun r => r.pool_id == 1),
      (flushBatch (stateSet emptyState (natToStr 1) ("T1", 9))
          [⟨1, "T0", 5, none, none, none⟩]).1 (natToStr 1)
        = some (r.bucket_start, r.close) ∧
      ∀ r' ∈ (Ohlcv.aggregateBatch
          [⟨1, "T0", 5, none, none, none⟩]).filter (fun r => r.pool_id == 1),
        r'.bucket_start ≤ r.bucket_start :=
  (claim_C3_state_update (stateSet emptyState (natToStr 1) ("T1", 9))
      [⟨1, "T0", 5, none, none, none⟩] 1).2
    (by
      norm_num [Ohlcv.aggregateBatch, Ohlcv.aggStep, Ohlcv.aggInit, pairOf,
        jsOrZeroQ, List.filter])

/-! ## Price/pool selection (`api/util/pool-select.js`)

The read-model tables are lists of typed rows in storage order; the SQL
queries of `pool-select.js` are translated into the corresponding list
computations (`ORDER BY ... LIMIT n` becomes a stable sort plus `take`). -/

structure PriceRow where
  pool_id : Nat
  token_id : String
  price_in_zig : ℚ
  updated_at : ℚ
deriving DecidableEq, Repr

structure PoolRow where
  pool_id : Nat
  pair_contract : String
  base_token_id : String
  is_uzig_quote : Bool
  created_at : ℚ
deriving DecidableEq, Repr

structure PoolMatrixRow where
  pool_id : Nat
  bucket : String
  tvl_zig : Option ℚ
deriving DecidableEq, Repr

/-- A row of `ohlcv_1m` as read by `changePctForMinutes`; the pool id is
kept as the string the query parameter `String(poolId)` is matched against,
and `bucket_start` is the DateTime in seconds. -/
structure OhlcvDbRow where
  pool_id : String
  bucket_start : ℚ
  close : ℚ
deriving DecidableEq, Repr

structure Store where
  prices : List PriceRow
  pools : List PoolRow
  pool_matrix : List PoolMatrixRow
  ohlcv_1m : List OhlcvDbRow
deriving Repr

/-- A joined row of the `bestUzigPool` price query. -/
structure PriceCand where
  pool_id : Nat
  price_in_zig : ℚ
  updated_at : ℚ
  pair_contract : String
deriving DecidableEq, Repr

/-- `ORDER BY pr.updated_at DESC`. -/
def updatedDesc (a b : PriceCand) : Prop :=
  b.updated_at ≤ a.updated_at

instance : DecidableRel updatedDesc := fun a b => by
  unfold updatedDesc
  infer_instance

instance : IsTotal PriceCand updatedDesc := by
  constructor
  intro a b
  exact (le_total b.updated_at a.updated_at).imp id id

instance : IsTrans PriceCand updatedDesc :=
  ⟨fun _ _ _ hab hbc => le_trans hbc hab⟩

/-- The 16 most-recently-updated prices of pools quoting `tokenId` in the
settlement currency (the first SQL query of `bestUzigPool`). -/
def priceCandidates (st : Store) (tokenId : String) : List PriceCand :=
  (List.insertionSort updatedDesc
    (st.prices.filterMap (fun pr =>
      if pr.token_id = tokenId then
        (st.pools.find? (fun p => p.pool_id == pr.pool_id)).bind (fun p =>
          if p.is_uzig_quote then
            some ⟨pr.pool_id, pr.price_in_zig, pr.updated_at, p.pair_contract⟩
          else none)
      else none))).take 16

/-- The `tvlMap` lookup: latest `pool_matrix` row with bucket `'24h'` for
the pool (later rows win in `new Map(...)`), missing or null TVL as 0. -/
def tvlOf (st : Store) (pid : Nat) : ℚ :=
  match (st.pool_matrix.filter
      (fun r => r.bucket == "24h" && r.pool_id == pid)).getLast? with
  | some r => r.tvl_zig.getD 0
  | none => 0

/-- The `prices.rows.sort` comparator of `bestUzigPool`: lower price first,
ties broken by higher 24h TVL.  `bestLe st a b` iff the comparator returns
`≤ 0` on `(a, b)`. -/
def bestLe (st : Store) (a b : PriceCand) : Prop :=
  a.price_in_zig < b.price_in_zig ∨
    (a.price_in_zig = b.price_in_zig ∧ tvlOf st b.pool_id ≤ tvlOf st a.pool_id)

instance (st : Store) : DecidableRel (bestLe st) := fun a b => by
  unfold bestLe
  infer_instance

instance (st : Store) : IsTotal PriceCand (bestLe st) := by
  constructor
  intro a b
  rcases lt_trichotomy a.price_in_zig b.price_in_zig with h | h | h
  · exact Or.inl (Or.inl h)
  · rcases le_total (tvlOf st b.pool_id) (tvlOf st a.pool_id) with h2 | h2
    · exact Or.inl (Or.inr ⟨h, h2⟩)
    · exact Or.inr (Or.inr ⟨h.symm, h2⟩)
  · exact Or.inr (Or.inl h)

instance (st : Store) : IsTrans PriceCand (bestLe st) := by
  constructor
  intro a b c hab hbc
  rcases hab with hab | ⟨hab, hab2⟩
  · rcases hbc with hbc | ⟨hbc, _⟩
    · exact Or.inl (hab.trans hbc)
    · exact Or.inl (hbc ▸ hab)
  · rcases hbc with hbc | ⟨hbc, hbc2⟩
    · exact Or.inl (hab ▸ hbc)
    · exact Or.inr ⟨hab.trans hbc, hbc2.trans hab2⟩

structure BestPool where
  pool_id : Nat
  pair_contract : String
  price_in_zig : ℚ
deriving DecidableEq, Repr

/-- `bestUzigPool`: best executable price pool (lowest `price_in_zig`,
tie-break by highest 24h TVL). -/
def bestUzigPool (st : Store) (tokenId : String) : Option BestPool :=
  match List.insertionSort (bestLe st) (priceCandidates st tokenId) with
  | [] => none
  | top :: _ => some ⟨top.pool_id, top.pair_contract, top.price_in_zig⟩

structure PoolRef where
  pool_id : Nat
  pair_contract : String
deriving DecidableEq, Repr

/-- `ORDER BY p.created_at ASC`. -/
def createdAsc (a b : PoolRow) : Prop :=
  a.created_at ≤ b.created_at

instance : DecidableRel createdAsc := fun a b => by
  unfold createdAsc
  infer_instance

instance : IsTotal PoolRow createdAsc :=
  ⟨fun a b => le_total a.created_at b.created_at⟩

instance : IsTrans PoolRow createdAsc :=
  ⟨fun _ _ _ hab hbc => le_trans hab hbc⟩

/-- `firstUzigPool`: earliest-created UZIG-quoted pool for this token. -/
def firstUzigPool (st : Store) (tokenId : String) : Option PoolRef :=
  match List.insertionSort createdAsc
      (st.pools.filter (fun p => p.base_token_id == tokenId && p.is_uzig_quote)) with
  | [] => none
  | p :: _ => some ⟨p.pool_id, p.pair_contract⟩

/-- A JavaScript value exactly as the selection/percent-change guards
inspect it: whether it is null/undefined, whether it is truthy, its
`Number(·)` value and its `String(·)` rendering. -/
structure JsValue where
  isNullish : Bool
  truthy : Bool
  numVal : JSNum
  strVal : String
deriving Repr

/-- `Number(v || 0)`. -/
def jsNumOr0 (v : JsValue) : JSNum :=
  if v.truthy then v.numVal else .fin 0

/-- `x || d` on a possibly-absent string. -/
def jsOrDefaultStr (v : Option String) (d : String) : String :=
  match v with
  | none => d
  | some "" => d
  | some s => s

/-- `.toLowerCase()` (per-character). -/
def jsToLower (s : String) : String :=
  ⟨s.data.map Char.toLower⟩

/-- The pool reference returned by `resolvePoolSelection`, tagged by which
query produced it. -/
inductive ResolvedPool where
  | explicitPool (p : PoolRef)
  | firstPool (p : PoolRef)
  | bestPool (p : BestPool)
deriving DecidableEq, Repr

structure Resolved where
  mode : String
  pool : Option ResolvedPool
deriving DecidableEq, Repr

/-- `resolvePoolSelection(tokenId, { priceSource, poolId })`. -/
def resolvePoolSelection (st : Store) (tokenId : String)
    (priceSource : Option String) (poolId : JsValue) : Resolved :=
  let src := jsToLower (jsOrDefaultStr priceSource "best")
  if src = "pool" then
    match jsNumOr0 poolId with
    | .fin q =>
      if q ≤ 0 then ⟨"pool", none⟩
      else
        match st.pools.find?
            (fun r => ((r.pool_id : ℚ) == q) && (r.base_token_id == tokenId)) with
        | some r => ⟨"pool", some (.explicitPool ⟨r.pool_id, r.pair_contract⟩)⟩
        | none => ⟨"pool", none⟩
    | _ => ⟨"pool", none⟩
  else if src = "first" then
    ⟨"first", (firstUzigPool st tokenId).map .firstPool⟩
  else
    ⟨"best", (bestUzigPool st tokenId).map .bestPool⟩

/-! ## `changePctForMinutes` -/

/-- `ORDER BY bucket_start DESC LIMIT 1` over a filtered table: the row with
the maximal bucket (first such row wins on equal buckets, which the SQL
leaves unspecified). -/
def pickLatest (acc : Option OhlcvDbRow) (r : OhlcvDbRow) : Option OhlcvDbRow :=
  match acc with
  | none => some r
  | some a => if a.bucket_start < r.bucket_start then some r else acc

def latestRow (rows : List OhlcvDbRow) : Option OhlcvDbRow :=
  rows.foldl pickLatest none

/-- The `last` CTE: most recent close for the pool. -/
def lastCloseRow (st : Store) (key : String) : Option OhlcvDbRow :=
  latestRow (st.ohlcv_1m.filter (fun r => r.pool_id == key))

/-- The `prev` CTE: most recent close at or before the cutoff. -/
def prevCloseRow (st : Store) (key : String) (cutoff : ℚ) : Option OhlcvDbRow :=
  latestRow (st.ohlcv_1m.filter
    (fun r => r.pool_id == key && decide (r.bucket_start ≤ cutoff)))

/-- ClickHouse `toInt64($2)` applied to the query parameter
`String(mins)`: it parses exactly when the value is an integer in `Int64`
range (an integral double prints without a fractional part).  A fractional
value such as `1.5` passes the JS `isFinite`/`> 0` guard but prints as
`"1.5"`, which `toInt64` cannot parse, so the query raises instead of
returning rows. -/
def ToInt64Parses (m : ℚ) : Prop :=
  (⌊m⌋ : ℚ) = m ∧ -(2 ^ 63) ≤ ⌊m⌋ ∧ ⌊m⌋ < 2 ^ 63

instance : DecidablePred ToInt64Parses := fun m => by
  unfold ToInt64Parses
  infer_instance

/-- `changePctForMinutes(poolId, minutes)`; `now` is the server clock in
seconds.  The result is `Except`: the JS function does not catch the
database error that `toInt64` raises on an unparseable parameter, so that
error propagates to the caller. -/
def changePctForMinutes (st : Store) (now : ℚ)
    (poolId minutes : JsValue) : Except String (Option ℚ) :=
  if poolId.isNullish || (poolId.strVal == "") || (poolId.strVal == "undefined")
      || poolId.numVal.isNaN then .ok none
  else
    match jsNumOr0 minutes with
    | .fin m =>
      if m ≤ 0 then .ok none
      else if ToInt64Parses m then
        .ok (match lastCloseRow st poolId.strVal,
            prevCloseRow st poolId.strVal (now - 60 * m) with
          | some l, some p =>
            if 0 < p.close then some ((l.close - p.close) / p.close * 100)
            else none
          | _, _ => none)
      else .error "CANNOT_PARSE_TEXT: toInt64"
    | _ => .ok none

theorem insertionSort_eq_nil_iff {α : Type} (r : α → α → Prop) [DecidableRel r]
    (l : List α) : List.insertionSort r l = [] ↔ l = [] := by
  constructor
  · intro h
    have hperm := List.perm_insertionSort r l
    rw [h] at hperm
    exact (hperm.symm).eq_nil
  · intro h
    rw [h]
    rfl

/-- **C4.** Under policy `best`, among the (up to) 16 most-recently-updated
prices of pools quoting the token in the settlement currency, `bestUzigPool`
returns a candidate of minimal price, ties broken by maximal trailing-24h
TVL (missing TVL treated as 0); with pools A (price 5, TVL 100) and
B (price 5, TVL 200) it selects B; it returns null exactly when no such
priced pool exists. -/
theorem claim_C4_best_uzig_pool :
    (∀ (st : Store) (tokenId : String),
      bestUzigPool st tokenId = none ↔ priceCandidates st tokenId = []) ∧
    (∀ (st : Store) (tokenId : String) (b : BestPool),
      bestUzigPool st tokenId = some b →
      ∃ c ∈ priceCandidates st tokenId,
        b = ⟨c.pool_id, c.pair_contract, c.price_in_zig⟩ ∧
        ∀ c' ∈ priceCandidates st tokenId,
          c.price_in_zig ≤ c'.price_in_zig ∧
          (c'.price_in_zig = c.price_in_zig →
            tvlOf st c'.pool_id ≤ tvlOf st c.pool_id)) ∧
    (∀ (st : Store) (pid : Nat),
      st.pool_matrix.filter (fun r => r.bucket == "24h" && r.pool_id == pid) = [] →
      tvlOf st pid = 0) ∧
    bestUzigPool
      ⟨[⟨1, "tok", 5, 100⟩, ⟨2, "tok", 5, 90⟩],
       [⟨1, "A", "tok", true, 0⟩, ⟨2, "B", "tok", true, 0⟩],
       [⟨1, "24h", some 100⟩, ⟨2, "24h", some 200⟩], []⟩ "tok"
      = some ⟨2, "B", 5⟩ := by
  refine ⟨?_, ?_, ?_, ?_⟩
  · intro st tok
    cases hsort : List.insertionSort (bestLe st) (priceCandidates st tok) with
    | nil =>
      have hnil := (insertionSort_eq_nil_iff (bestLe st) _).mp hsort
      simp [bestUzigPool, hsort, hnil]
    | cons t rest =>
      constructor
      · intro hcontra
        rw [bestUzigPool, hsort] at hcontra
        exact absurd hcontra (by simp)
      · intro hcands
        rw [hcands] at hsort
        exact absurd hsort.symm (by simp [List.insertionSort])
  · intro st tok b hb
    cases hsort : List.insertionSort (bestLe st) (priceCandidates st tok) with
    | nil =>
      rw [bestUzigPool, hsort] at hb
      exact absurd hb (by simp)
    | cons t rest =>
      rw [bestUzigPool, hsort] at hb
      have hb2 : b = ⟨t.pool_id, t.pair_contract, t.price_in_zig⟩ := by
        have := Option.some.inj hb
        rw [← this]
      have hmem : t ∈ priceCandidates st tok :=
        (List.mem_insertionSort (bestLe st)).mp
          (hsort.symm ▸ List.mem_cons_self t rest)
      have hsorted : List.Sorted (bestLe st) (t :: rest) :=
        hsort ▸ List.sorted_insertionSort (bestLe st) (priceCandidates st tok)
      have hrel : ∀ x ∈ rest, bestLe st t x := (List.sorted_cons.mp hsorted).1
      refine ⟨t, hmem, hb2, ?_⟩
      intro c' hc'
      have hc's : c' ∈ t :: rest :=
        hsort ▸ (List.mem_insertionSort (bestLe st)).mpr hc'
      rcases List.mem_cons.mp hc's with rfl | hc'rest
      · exact ⟨le_refl _, fun _ => le_refl _⟩
      · rcases hrel c' hc'rest with hlt | ⟨heq, htvl⟩
        · refine ⟨le_of_lt hlt, fun hceq => ?_⟩
          exfalso
          rw [hceq] at hlt
          exact lt_irrefl _ hlt
        · exact ⟨le_of_eq heq, fun _ => htvl⟩
  · intro st pid h
    unfold tvlOf
    rw [h]
    rfl
  · decide

/-- **C4 (witness).** The minimality statement instantiated at the
A/B tie-break store. -/
theorem claim_C4_best_uzig_pool_witness :
    ∃ c ∈ priceCandidates
        ⟨[⟨1, "tok", 5, 100⟩, ⟨2, "tok", 5, 90⟩],
         [⟨1, "A", "tok", true, 0⟩, ⟨2, "B", "tok", true, 0⟩],
         [⟨1, "24h", some 100⟩, ⟨2, "24h", some 200⟩], []⟩ "tok",
      (⟨2, "B", 5⟩ : BestPool) = ⟨c.pool_id, c.pair_contract, c.price_in_zig⟩ ∧
      ∀ c' ∈ priceCandidates
          ⟨[⟨1, "tok", 5, 100⟩, ⟨2, "tok", 5, 90⟩],
           [⟨1, "A", "tok", true, 0⟩, ⟨2, "B", "tok", true, 0⟩],
           [⟨1, "24h", some 100⟩, ⟨2, "24h", some 200⟩], []⟩ "tok",
        c.price_in_zig ≤ c'.price_in_zig ∧
        (c'.price_in_zig = c.price_in_zig →
          tvlOf ⟨[⟨1, "tok", 5, 100⟩, ⟨2, "tok", 5, 90⟩],
            [⟨1, "A", "tok", true, 0⟩, ⟨2, "B", "tok", true, 0⟩],
            [⟨1, "24h", some 100⟩, ⟨2, "24h", some 200⟩], []⟩ c'.pool_id
          ≤ tvlOf ⟨[⟨1, "tok", 5, 100⟩, ⟨2, "tok", 5, 90⟩],
            [⟨1, "A", "tok", true, 0⟩, ⟨2, "B", "tok", true, 0⟩],
            [⟨1, "24h", some 100⟩, ⟨2, "24h", some 200⟩], []⟩ c.pool_id) :=
  claim_C4_best_uzig_pool.2.1
    ⟨[⟨1, "tok", 5, 100⟩, ⟨2, "tok", 5, 90⟩],
     [⟨1, "A", "tok", true, 0⟩, ⟨2, "B", "tok", true, 0⟩],
     [⟨1, "24h", some 100⟩, ⟨2, "24h", some 200⟩], []⟩ "tok" ⟨2, "B", 5⟩
    (by decide)

/-- **C5.** Under policy `pool`, a missing, non-numeric or non-positive pool
id yields `{mode: "pool", pool: null}` without error (the result is the same
constant for every store, so no query is consulted); a valid pool id yields
exactly the first `pools` row matching `(pool_id, base_token_id)`, so a pool
is returned only if its base token matches the requested token. -/
theorem claim_C5_pool_policy :
    ∀ (st : Store) (tokenId : String) (poolId : JsValue),
      (((jsNumOr0 poolId).isFinite = false ∨
          ∃ q, jsNumOr0 poolId = .fin q ∧ q ≤ 0) →
        resolvePoolSelection st tokenId (some "pool") poolId = ⟨"pool", none⟩) ∧
      (∀ q, jsNumOr0 poolId = .fin q → 0 < q →
        (resolvePoolSelection st tokenId (some "pool") poolId).pool
          = (st.pools.find?
              (fun r => ((r.pool_id : ℚ) == q) && (r.base_token_id == tokenId))).map
            (fun r => ResolvedPool.explicitPool ⟨r.pool_id, r.pair_contract⟩)) ∧
      (∀ p, (resolvePoolSelection st tokenId (some "pool") poolId).pool
          = some (.explicitPool p) →
        ∃ r ∈ st.pools, r.base_token_id = tokenId ∧
          p = ⟨r.pool_id, r.pair_contract⟩) := by
  intro st tokenId poolId
  have hsrc : jsToLower (jsOrDefaultStr (some "pool") "best") = "pool" := by decide
  have hres : resolvePoolSelection st tokenId (some "pool") poolId
      = match jsNumOr0 poolId with
        | .fin q =>
          if q ≤ 0 then ⟨"pool", none⟩
          else
            match st.pools.find?
                (fun r => ((r.pool_id : ℚ) == q) && (r.base_token_id == tokenId)) with
            | some r => ⟨"pool", some (.explicitPool ⟨r.pool_id, r.pair_contract⟩)⟩
            | none => ⟨"pool", none⟩
        | _ => ⟨"pool", none⟩ := by
    unfold resolvePoolSelection
    rw [hsrc]
    rw [if_pos rfl]
  have h1 : ((jsNumOr0 poolId).isFinite = false ∨
      ∃ q, jsNumOr0 poolId = .fin q ∧ q ≤ 0) →
      resolvePoolSelection st tokenId (some "pool") poolId = ⟨"pool", none⟩ := by
    rintro (hnf | ⟨q, hq, hle⟩)
    · rw [hres]
      cases hn : jsNumOr0 poolId with
      | fin q => rw [hn] at hnf; exact absurd hnf (by simp [JSNum.isFinite])
      | nan => rfl
      | inf => rfl
      | ninf => rfl
    · rw [hres, hq]
      show (if q ≤ 0 then (⟨"pool", none⟩ : Resolved) else _) = ⟨"pool", none⟩
      rw [if_pos hle]
  have h2 : ∀ q, jsNumOr0 poolId = .fin q → 0 < q →
      (resolvePoolSelection st tokenId (some "pool") poolId).pool
        = (st.pools.find?
            (fun r => ((r.pool_id : ℚ) == q) && (r.base_token_id == tokenId))).map
          (fun r => ResolvedPool.explicitPool ⟨r.pool_id, r.pair_contract⟩) := by
    intro q hq hpos
    rw [hres, hq]
    show ((if q ≤ 0 then (⟨"pool", none⟩ : Resolved) else _)).pool = _
    rw [if_neg (not_le.mpr hpos)]
    cases hfind : st.pools.find?
        (fun r => ((r.pool_id : ℚ) == q) && (r.base_token_id == tokenId)) with
    | some r => rfl
    | none => rfl
  refine ⟨h1, h2, ?_⟩
  intro p hp
  cases hn : jsNumOr0 poolId with
  | fin q =>
    by_cases hle : q ≤ 0
    · rw [h1 (Or.inr ⟨q, hn, hle⟩)] at hp
      exact absurd hp (by simp)
    · rw [h2 q hn (lt_of_not_le hle)] at hp
      cases hfind : st.pools.find?
          (fun r => ((r.pool_id : ℚ) == q) && (r.base_token_id == tokenId)) with
      | none =>
        rw [hfind] at hp
        exact absurd hp (by simp)
      | some r =>
        rw [hfind] at hp
        have hpr : p = ⟨r.pool_id, r.pair_contract⟩ := by
          have h3 : ({ pool_id := r.pool_id, pair_contract := r.pair_contract }
              : PoolRef) = p := Option.some.inj (by simpa using hp)
          exact h3.symm
        have hpred := List.find?_some hfind
        have hbase : r.base_token_id = tokenId := by
          have h4 := (Bool.and_eq_true _ _).mp hpred
          exact beq_iff_eq.mp h4.2
        exact ⟨r, List.mem_of_find?_eq_some hfind, hbase, hpr⟩
  | nan =>
    rw [h1 (Or.inl (by rw [hn]; rfl))] at hp
    exact absurd hp (by simp)
  | inf =>
    rw [h1 (Or.inl (by rw [hn]; rfl))] at hp
    exact absurd hp (by simp)
  | ninf =>
    rw [h1 (Or.inl (by rw [hn]; rfl))] at hp
    exact absurd hp (by simp)

/-- **C5 (witness).** A missing pool id (`Number(undefined || 0) = 0`)
yields the constant no-result answer on a concrete store. -/
theorem claim_C5_pool_policy_witness :
    resolvePoolSelection
        ⟨[], [⟨7, "C", "other", true, 0⟩], [], []⟩ "tok" (some "pool")
        ⟨true, false, .nan, "undefined"⟩ = ⟨"pool", none⟩ :=
  (claim_C5_pool_policy ⟨[], [⟨7, "C", "other", true, 0⟩], [], []⟩ "tok"
      ⟨true, false, .nan, "undefined"⟩).1
    (Or.inr ⟨0, rfl, le_refl 0⟩)

theorem latestRow_mem_aux :
    ∀ (rows : List OhlcvDbRow) (acc : Option OhlcvDbRow) (r : OhlcvDbRow),
      rows.foldl pickLatest acc = some r → acc = some r ∨ r ∈ rows := by
  intro rows
  induction rows with
  | nil =>
    intro acc r h
    exact Or.inl h
  | cons x t ih =>
    intro acc r h
    rw [List.foldl_cons] at h
    rcases ih (pickLatest acc x) r h with hacc | hmem
    · cases acc with
      | none =>
        right
        have : x = r := Option.some.inj hacc
        exact this ▸ List.mem_cons_self _ _
      | some a =>
        simp only [pickLatest] at hacc
        by_cases hlt : a.bucket_start < x.bucket_start
        · rw [if_pos hlt] at hacc
          right
          exact (Option.some.inj hacc) ▸ List.mem_cons_self _ _
        · rw [if_neg hlt] at hacc
          exact Or.inl hacc
    · exact Or.inr (List.mem_cons_of_mem _ hmem)

theorem latestRow_mem (rows : List OhlcvDbRow) (r : OhlcvDbRow)
    (h : latestRow rows = some r) : r ∈ rows := by
  rcases latestRow_mem_aux rows none r h with hacc | hmem
  · exact absurd hacc (by simp)
  · exact hmem

theorem latestRow_some_aux :
    ∀ (rows : List OhlcvDbRow) (a : OhlcvDbRow),
      ∃ r, rows.foldl pickLatest (some a) = some r := by
  intro rows
  induction rows with
  | nil => intro a; exact ⟨a, rfl⟩
  | cons x t ih =>
    intro a
    rw [List.foldl_cons]
    by_cases hlt : a.bucket_start < x.bucket_start
    · have : pickLatest (some a) x = some x := by
        simp only [pickLatest]
        rw [if_pos hlt]
      rw [this]
      exact ih x
    · have : pickLatest (some a) x = some a := by
        simp only [pickLatest]
        rw [if_neg hlt]
      rw [this]
      exact ih a

theorem latestRow_some (x : OhlcvDbRow) (t : List OhlcvDbRow) :
    ∃ r, latestRow (x :: t) = some r := by
  unfold latestRow
  rw [List.foldl_cons]
  exact latestRow_some_aux t x

/-- The pool-id argument passes all four guards of `changePctForMinutes`. -/
def goodPoolIdArg (v : JsValue) : Prop :=
  v.isNullish = false ∧ v.strVal ≠ "" ∧ v.strVal ≠ "undefined" ∧
    v.numVal.isNaN = false

/-- **C6 (counterexample).** `minutes = 1.5` is finite and positive, so it
passes every guard, and the store holds a positive previous close at or
before `now − 90s` (row (bucket 0, close 10) with cutoff 10) — the claim's
"otherwise" case, which promises the formula.  But `String(1.5) = "1.5"`
cannot be parsed by the query's `toInt64`, so the call raises instead of
returning a value. -/
theorem claim_C6_counterexample :
    changePctForMinutes
        ⟨[], [], [], [⟨"5", 95, 42⟩, ⟨"5", 0, 10⟩]⟩ 100
        ⟨false, true, .fin 5, "5"⟩ ⟨false, true, .fin (3 / 2), "1.5"⟩
      = .error "CANNOT_PARSE_TEXT: toInt64" ∧
    (0 : ℚ) < 3 / 2 ∧ (JSNum.fin (3 / 2)).isFinite = true ∧
    prevCloseRow ⟨[], [], [], [⟨"5", 95, 42⟩, ⟨"5", 0, 10⟩]⟩ "5"
        (100 - 60 * (3 / 2)) = some ⟨"5", 0, 10⟩ ∧
    (0 : ℚ) < 10 := by
  have hfloor : ⌊(3 / 2 : ℚ)⌋ = 1 := by
    rw [Int.floor_eq_iff]
    constructor <;> norm_num
  have hparse : ¬ ToInt64Parses (3 / 2 : ℚ) := by
    unfold ToInt64Parses
    rw [hfloor]
    intro h
    exact absurd h.1 (by norm_num)
  have h32 : ¬ ((3 / 2 : ℚ) ≤ 0) := by norm_num
  refine ⟨?_, by norm_num, rfl, ?_, by norm_num⟩
  · unfold changePctForMinutes
    rw [if_neg (by decide)]
    have hm : jsNumOr0 ⟨false, true, .fin (3 / 2), "1.5"⟩
        = JSNum.fin (3 / 2) := rfl
    simp only [hm]
    rw [if_neg h32, if_neg hparse]
  · have hc1 : ¬ ((95 : ℚ) ≤ 100 - 60 * (3 / 2)) := by norm_num
    have hc2 : ((0 : ℚ) ≤ 100 - 60 * (3 / 2)) := by norm_num
    simp [prevCloseRow, latestRow, pickLatest, hc1, hc2]

/-- **C6 (amended).** `changePctForMinutes` returns null for every missing
or non-numeric pool id and for every non-positive or non-finite minute
window (for any store and clock, so no query is involved), and returns
null when the previous close at or before `now − N` minutes is missing or
non-positive; when `N` is finite and positive but not an `Int64` integer
(e.g. fractional), the query's `toInt64` cast raises instead of returning
a value; otherwise (integer `N`) it returns `((last − prev) / prev) ×
100`. -/
theorem claim_C6_change_pct :
    ∀ (st : Store) (now : ℚ) (poolId minutes : JsValue),
      (poolId.isNullish = true ∨ poolId.strVal = "" ∨ poolId.strVal = "undefined"
          ∨ poolId.numVal.isNaN = true →
        changePctForMinutes st now poolId minutes = .ok none) ∧
      ((jsNumOr0 minutes).isFinite = false ∨
          (∃ m, jsNumOr0 minutes = .fin m ∧ m ≤ 0) →
        changePctForMinutes st now poolId minutes = .ok none) ∧
      (∀ m, goodPoolIdArg poolId → jsNumOr0 minutes = .fin m → 0 < m →
        ¬ ToInt64Parses m →
        changePctForMinutes st now poolId minutes
          = .error "CANNOT_PARSE_TEXT: toInt64") ∧
      (∀ m, jsNumOr0 minutes = .fin m → 0 < m → ToInt64Parses m →
        prevCloseRow st poolId.strVal (now - 60 * m) = none →
        changePctForMinutes st now poolId minutes = .ok none) ∧
      (∀ m p, jsNumOr0 minutes = .fin m → 0 < m → ToInt64Parses m →
        prevCloseRow st poolId.strVal (now - 60 * m) = some p → p.close ≤ 0 →
        changePctForMinutes st now poolId minutes = .ok none) ∧
      (∀ m p, goodPoolIdArg poolId → jsNumOr0 minutes = .fin m → 0 < m →
        ToInt64Parses m →
        prevCloseRow st poolId.strVal (now - 60 * m) = some p → 0 < p.close →
        ∃ l, lastCloseRow st poolId.strVal = some l ∧
          changePctForMinutes st now poolId minutes
            = .ok (some ((l.close - p.close) / p.close * 100))) := by
  intro st now poolId minutes
  have hguard : ∀ (_ : (poolId.isNullish || (poolId.strVal == "")
        || (poolId.strVal == "undefined") || poolId.numVal.isNaN) = true),
      changePctForMinutes st now poolId minutes = .ok none := by
    intro h
    unfold changePctForMinutes
    rw [if_pos h]
  have hbody : (poolId.isNullish || (poolId.strVal == "")
        || (poolId.strVal == "undefined") || poolId.numVal.isNaN) = false →
      changePctForMinutes st now poolId minutes
        = match jsNumOr0 minutes with
          | .fin m =>
            if m ≤ 0 then .ok none
            else if ToInt64Parses m then
              .ok (match lastCloseRow st poolId.strVal,
                  prevCloseRow st poolId.strVal (now - 60 * m) with
                | some l, some p =>
                  if 0 < p.close then some ((l.close - p.close) / p.close * 100)
                  else none
                | _, _ => none)
            else .error "CANNOT_PARSE_TEXT: toInt64"
          | _ => .ok none := by
    intro h
    unfold changePctForMinutes
    rw [if_neg (by simp [h])]
  have hgoodFalse : goodPoolIdArg poolId →
      (poolId.isNullish || (poolId.strVal == "")
        || (poolId.strVal == "undefined") || poolId.numVal.isNaN) = false := by
    rintro ⟨h1, h2, h3, h4⟩
    simp [h1, h2, h3, h4]
  refine ⟨?_, ?_, ?_, ?_, ?_, ?_⟩
  · rintro (h | h | h | h) <;> exact hguard (by simp [h])
  · intro hmin
    by_cases hg : (poolId.isNullish || (poolId.strVal == "")
        || (poolId.strVal == "undefined") || poolId.numVal.isNaN) = true
    · exact hguard hg
    · rw [hbody (by simpa using hg)]
      rcases hmin with hnf | ⟨m, hm, hle⟩
      · cases hn : jsNumOr0 minutes with
        | fin m => rw [hn] at hnf; exact absurd hnf (by simp [JSNum.isFinite])
        | nan => rfl
        | inf => rfl
        | ninf => rfl
      · rw [hm]
        show (if m ≤ 0 then Except.ok none else _) = .ok none
        rw [if_pos hle]
  · intro m hgood hm hpos hparse
    rw [hbody (hgoodFalse hgood), hm]
    show (if m ≤ 0 then Except.ok none else _) = _
    rw [if_neg (not_le.mpr hpos), if_neg hparse]
  · intro m hm hpos hparse hprev
    by_cases hg : (poolId.isNullish || (poolId.strVal == "")
        || (poolId.strVal == "undefined") || poolId.numVal.isNaN) = true
    · exact hguard hg
    · rw [hbody (by simpa using hg), hm]
      show (if m ≤ 0 then Except.ok none else _) = .ok none
      rw [if_neg (not_le.mpr hpos), if_pos hparse, hprev]
      cases hlast : lastCloseRow st poolId.strVal with
      | none => rfl
      | some l => rfl
  · intro m p hm hpos hparse hprev hclose
    by_cases hg : (poolId.isNullish || (poolId.strVal == "")
        || (poolId.strVal == "undefined") || poolId.numVal.isNaN) = true
    · exact hguard hg
    · rw [hbody (by simpa using hg), hm]
      show (if m ≤ 0 then Except.ok none else _) = .ok none
      rw [if_neg (not_le.mpr hpos), if_pos hparse, hprev]
      cases hlast : lastCloseRow st poolId.strVal with
      | none => rfl
      | some l =>
        show Except.ok (if 0 < p.close then _ else none) = .ok none
        rw [if_neg (not_lt.mpr hclose)]
  · intro m p hgood hm hpos hparse hprev hclose
    have hpmem := latestRow_mem _ _ hprev
    have hpf := List.mem_filter.mp hpmem
    have hpkey : (p.pool_id == poolId.strVal) = true :=
      ((Bool.and_eq_true _ _).mp hpf.2).1
    have hpl : p ∈ st.ohlcv_1m.filter (fun r => r.pool_id == poolId.strVal) :=
      List.mem_filter.mpr ⟨hpf.1, hpkey⟩
    obtain ⟨l, hl⟩ : ∃ l, lastCloseRow st poolId.strVal = some l := by
      unfold lastCloseRow
      cases hlf : st.ohlcv_1m.filter (fun r => r.pool_id == poolId.strVal) with
      | nil => rw [hlf] at hpl; exact absurd hpl (by simp)
      | cons x t => exact latestRow_some x t
    refine ⟨l, hl, ?_⟩
    rw [hbody (hgoodFalse hgood), hm]
    show (if m ≤ 0 then Except.ok none else _) = _
    rw [if_neg (not_le.mpr hpos), if_pos hparse, hl, hprev]
    show Except.ok (if 0 < p.close then _ else none) = _
    rw [if_pos hclose]

/-- **C6 (witness).** A pool whose only candle is after `now − N` minutes
(integer `N`, so the cast succeeds): `prev` is missing, so the percent
change is null. -/
theorem claim_C6_change_pct_witness :
    changePctForMinutes ⟨[], [], [], [⟨"5", 1000, 42⟩]⟩ 1000
      ⟨false, true, .fin 5, "5"⟩ ⟨false, true, .fin 1, "1"⟩ = .ok none :=
  (claim_C6_change_pct ⟨[], [], [], [⟨"5", 1000, 42⟩]⟩ 1000
      ⟨false, true, .fin 5, "5"⟩ ⟨false, true, .fin 1, "1"⟩).2.2.2.1 1 rfl
    (by norm_num)
    (by
      refine ⟨?_, ?_, ?_⟩
      · rw [Int.floor_one]
        norm_num
      · rw [Int.floor_one]
        norm_num
      · rw [Int.floor_one]
        norm_num)
    (by
      have hc : ¬ ((1000 : ℚ) ≤ 1000 - 60 * 1) := by norm_num
      simp [prevCloseRow, latestRow, hc])

/-- **C7 (counterexample).** A missing value is coerced by `Number(v || 0)`
to the number 0 *before* the finiteness check, so `decOrZero(undefined, 18)`
renders as `(0).toFixed(18) = "0.000000000000000000"`, not the bare string
`"0"` the claim promises for missing inputs. -/
theorem claim_C7_counterexample :
    Ohlcv.decOrZero none 18 ≠ "0" ∧
    Ohlcv.decOrZero none 18 = "0.000000000000000000" := by
  have h0 : (⌊|(0:ℚ)| * (10:ℚ) ^ 18 + 1 / 2⌋).toNat = 0 := by norm_num
  have hlarge : ¬ ((10 : ℚ) ^ 21 ≤ |(0 : ℚ)|) := by norm_num
  have hfix : jsToFixed 0 18 = "0.000000000000000000" := by
    unfold jsToFixed
    rw [if_neg hlarge]
    simp only [jsToFixedFrac, h0]
    decide
  constructor
  · show jsToFixed 0 18 ≠ "0"
    rw [hfix]
    decide
  · exact hfix

/-- **C7 (amended).** `decOrZero(v, scale)` renders every finite `v` of
magnitude below `10^21` with exactly `scale` fractional digits; a missing
or NaN `v` is coerced to the number 0 and rendered the same way (so also
with `scale` fractional digits, not the bare `"0"`); at magnitude `10^21`
and above, `toFixed` falls back to `ToString`'s exponential form; only
`±Infinity` survives the `|| 0` coercion and yields the literal string
`"0"`.  `buildInsertSQL` is total: every row, whatever its values,
contributes exactly its nine arguments. -/
theorem claim_C7_decOrZero :
    (∀ (q : ℚ) (s : Nat), Ohlcv.decOrZero (some (.fin q)) s = jsToFixed q s) ∧
    (∀ s : Nat, Ohlcv.decOrZero none s = jsToFixed 0 s) ∧
    (∀ s : Nat, Ohlcv.decOrZero (some .nan) s = jsToFixed 0 s) ∧
    (∀ s : Nat, Ohlcv.decOrZero (some .inf) s = "0") ∧
    (∀ s : Nat, Ohlcv.decOrZero (some .ninf) s = "0") ∧
    (∀ (q : ℚ) (s : Nat), |q| < (10 : ℚ) ^ 21 →
      digitsAfterPoint (jsToFixed q s) = s) ∧
    (∀ (q : ℚ) (s : Nat), (10 : ℚ) ^ 21 ≤ |q| →
      jsToFixed q s = (if q < 0 then "-" else "") ++ jsLargeToString |q|) ∧
    (∀ rows, (Ohlcv.buildInsertSQLArgs rows).length = 9 * rows.length) := by
  refine ⟨?_, fun _ => rfl, fun _ => rfl, fun _ => rfl, fun _ => rfl,
    jsToFixed_fracDigits, jsToFixed_large, ?_⟩
  · intro q s
    unfold Ohlcv.decOrZero jsNumOrZero
    by_cases hq : q = 0
    · rw [hq]
      simp
    · simp [hq]
  · intro rows
    induction rows with
    | nil => rfl
    | cons r t ih =>
      unfold Ohlcv.buildInsertSQLArgs at ih ⊢
      rw [List.flatMap_cons, List.length_append, ih]
      show 9 + 9 * t.length = 9 * (t.length + 1)
      ring

/-- **C7 (witness).** The fixed-fraction digit-count statement applied at
a concrete small value. -/
theorem claim_C7_decOrZero_witness :
    |(0 : ℚ)| < (10 : ℚ) ^ 21 ∧ digitsAfterPoint (jsToFixed 0 18) = 18 :=
  ⟨by norm_num, claim_C7_decOrZero.2.2.2.2.2.1 0 18 (by norm_num)⟩

/-! ## Trade writer (`core/trades.js`) -/

namespace Trades

/-- One SQL argument of the trades bulk insert: JS pushes numbers, strings,
or `null` (for a missing `created_at`). -/
inductive SqlArg where
  | nat (n : Nat)
  | str (s : String)
  | nullv
deriving DecidableEq, Repr

/-- A trade record as it reaches `sqlValues`: every field the serializer
reads, optional when the upstream may omit it.  Amount fields are the raw
base-unit digit strings. -/
structure TradeRec where
  pool_id : Option Nat
  pair_contract : Option String
  action : Option String
  direction : Option String
  offer_asset_denom : Option String
  offer_amount_base : Option String
  ask_asset_denom : Option String
  ask_amount_base : Option String
  return_amount_base : Option String
  is_router : Bool
  reserve_asset1_denom : Option String
  reserve_asset1_amount_base : Option String
  reserve_asset2_denom : Option String
  reserve_asset2_amount_base : Option String
  height : Option Nat
  tx_hash : Option String
  signer : Option String
  msg_index : Option Nat
  created_at : Option String
deriving DecidableEq, Repr

/-- `t.x || d` on a possibly-absent string (the empty string is falsy). -/
def jsOrStr (v : Option String) (d : String) : String :=
  match v with
  | none => d
  | some "" => d
  | some s => s

/-- `core/trades.js` `decOrZero`: ensure decimals never see `''` or
`undefined`; use the number 0 instead, otherwise pass the trimmed digit
string (`String(v).trim()`) through for the database to cast. -/
def decOrZero (v : Option String) : SqlArg :=
  match v with
  | none => .nat 0
  | some s => if s.trim = "" then .nat 0 else .str s.trim

/-- `normalizeCreatedAt`: keep just the first 19 characters; a missing or
empty timestamp stays null. -/
def normalizeCreatedAt (v : Option String) : Option String :=
  match v with
  | none => none
  | some "" => none
  | some s => some (if s.length ≥ 19 then (s.take 19) else s)

/-- The nineteen insert arguments `sqlValues` pushes for one trade. -/
def sqlValuesOne (t : TradeRec) : List SqlArg :=
  [ .nat (t.pool_id.getD 0),
    .str (jsOrStr t.pair_contract ""),
    .str (jsOrStr t.action "swap"),
    .str (jsOrStr t.direction "buy"),
    .str (jsOrStr t.offer_asset_denom ""),
    decOrZero t.offer_amount_base,
    .str (jsOrStr t.ask_asset_denom ""),
    decOrZero t.ask_amount_base,
    decOrZero t.return_amount_base,
    .nat (if t.is_router then 1 else 0),
    .str (jsOrStr t.reserve_asset1_denom ""),
    decOrZero t.reserve_asset1_amount_base,
    .str (jsOrStr t.reserve_asset2_denom ""),
    decOrZero t.reserve_asset2_amount_base,
    .nat (t.height.getD 0),
    .str (jsOrStr t.tx_hash ""),
    .str (jsOrStr t.signer ""),
    .nat (t.msg_index.getD 0),
    match normalizeCreatedAt t.created_at with
    | some s => .str s
    | none => .nullv ]

/-- `sqlValues`: the argument vector of the whole batch. -/
def sqlValuesArgs (rows : List TradeRec) : List SqlArg :=
  rows.flatMap sqlValuesOne

end Trades

/-- **C8.** The trade writer's row serialization is total: every trade
contributes exactly 19 arguments, and each absent optional field is
substituted — empty string for pair contract, denominations, tx hash and
signer; the number 0 for amounts, height and message index — so no missing
field can reject the batch. -/
theorem claim_C8_trade_serialization :
    ∀ t : Trades.TradeRec,
      (Trades.sqlValuesOne t).length = 19 ∧
      (∀ rows, (Trades.sqlValuesArgs rows).length = 19 * rows.length) ∧
      (t.pair_contract = none →
        (Trades.sqlValuesOne t).getD 1 (.nat 7) = .str "") ∧
      (t.offer_asset_denom = none →
        (Trades.sqlValuesOne t).getD 4 (.nat 7) = .str "") ∧
      (t.offer_amount_base = none →
        (Trades.sqlValuesOne t).getD 5 (.str "x") = .nat 0) ∧
      (t.ask_asset_denom = none →
        (Trades.sqlValuesOne t).getD 6 (.nat 7) = .str "") ∧
      (t.ask_amount_base = none →
        (Trades.sqlValuesOne t).getD 7 (.str "x") = .nat 0) ∧
      (t.return_amount_base = none →
        (Trades.sqlValuesOne t).getD 8 (.str "x") = .nat 0) ∧
      (t.reserve_asset1_denom = none →
        (Trades.sqlValuesOne t).getD 10 (.nat 7) = .str "") ∧
      (t.reserve_asset1_amount_base = none →
        (Trades.sqlValuesOne t).getD 11 (.str "x") = .nat 0) ∧
      (t.reserve_asset2_denom = none →
        (Trades.sqlValuesOne t).getD 12 (.nat 7) = .str "") ∧
      (t.reserve_asset2_amount_base = none →
        (Trades.sqlValuesOne t).getD 13 (.str "x") = .nat 0) ∧
      (t.height = none →
        (Trades.sqlValuesOne t).getD 14 (.str "x") = .nat 0) ∧
      (t.tx_hash = none →
        (Trades.sqlValuesOne t).getD 15 (.nat 7) = .str "") ∧
      (t.signer = none →
        (Trades.sqlValuesOne t).getD 16 (.nat 7) = .str "") ∧
      (t.msg_index = none →
        (Trades.sqlValuesOne t).getD 17 (.str "x") = .nat 0) := by
  intro t
  refine ⟨rfl, ?_, ?_, ?_, ?_, ?_, ?_, ?_, ?_, ?_, ?_, ?_, ?_, ?_, ?_, ?_⟩
  · intro rows
    induction rows with
    | nil => rfl
    | cons r rest ih =>
      unfold Trades.sqlValuesArgs at ih ⊢
      rw [List.flatMap_cons, List.length_append, ih]
      show 19 + 19 * rest.length = 19 * (rest.length + 1)
      ring
  all_goals intro h
  all_goals simp [Trades.sqlValuesOne, Trades.jsOrStr, Trades.decOrZero, h]

/-- **C8 (witness).** The fully-absent trade record serializes to the
documented defaults. -/
theorem claim_C8_trade_serialization_witness :
    (Trades.sqlValuesOne
        ⟨none, none, none, none, none, none, none, none, none, false,
         none, none, none, none, none, none, none, none, none⟩).getD 1 (.nat 7)
        = .str "" ∧
    (Trades.sqlValuesOne
        ⟨none, none, none, none, none, none, none, none, none, false,
         none, none, none, none, none, none, none, none, none⟩).getD 5 (.str "x")
        = .nat 0 ∧
    (Trades.sqlValuesOne
        ⟨none, none, none, none, none, none, none, none, none, false,
         none, none, none, none, none, none, none, none, none⟩).getD 14 (.str "x")
        = .nat 0 :=
  ⟨(claim_C8_trade_serialization
      ⟨none, none, none, none, none, none, none, none, none, false,
       none, none, none, none, none, none, none, none, none⟩).2.2.1 rfl,
   (claim_C8_trade_serialization
      ⟨none, none, none, none, none, none, none, none, none, false,
       none, none, none, none, none, none, none, none, none⟩).2.2.2.2.1 rfl,
   (claim_C8_trade_serialization
      ⟨none, none, none, none, none, none, none, none, none, false,
       none, none, none, none, none, none, none, none, none⟩).2.2.2.2.2.2.2.2.2.2.2.2.1 rfl⟩

/-! ## Channel-name validation (`lib/pg_notify.js`, both versions) -/

/-- `CHAN_RX = /^[a-z_][a-z0-9_]*$/i` as a boolean matcher over the
channel's characters (the `i` flag admits both ASCII cases). -/
def chanValid (s : String) : Bool :=
  match s.data with
  | [] => false
  | c :: cs =>
    (c.isAlpha || c == '_') && cs.all (fun d => d.isAlphanum || d == '_')

/-- What the spec's identifier pattern denotes, spelled out: a first
character in `[A-Za-z_]` followed only by characters in `[A-Za-z0-9_]`. -/
def MatchesChanPattern (s : String) : Prop :=
  ∃ c cs, s.data = c :: cs ∧
    (('a' ≤ c ∧ c ≤ 'z') ∨ ('A' ≤ c ∧ c ≤ 'Z') ∨ c = '_') ∧
    ∀ d ∈ cs, ('a' ≤ d ∧ d ≤ 'z') ∨ ('A' ≤ d ∧ d ≤ 'Z') ∨
      ('0' ≤ d ∧ d ≤ '9') ∨ d = '_'

/-- An observable effect of the in-process event-bus `pg_notify.js`. -/
inductive BusEffect where
  | emit (channel : String) (payload : String)
  | registerListener (channel : String)
deriving DecidableEq, Repr

/-- `pgNotify` of the event-bus version (`lib/pg_notify.js` with
`EventEmitter`): validate, then emit on the local bus.  The returned list
is the effects performed; an invalid channel raises before doing anything,
so the error carries no effects. -/
def pgNotifyBus (channel payload : String) : Except String (List BusEffect) :=
  if chanValid channel then .ok [.emit channel payload]
  else .error ("invalid channel: " ++ channel)

/-- `pgListen` of the event-bus version: validate, then register the
handler. -/
def pgListenBus (channel : String) : Except String (List BusEffect) :=
  if chanValid channel then .ok [.registerListener channel]
  else .error ("invalid channel: " ++ channel)

/-- `pgNotify` of the no-op version (`lib/pg_notify.js` for the ClickHouse
backend): validate, then do nothing. -/
def pgNotifyNoop (channel : String) : Except String (List BusEffect) :=
  if chanValid channel then .ok []
  else .error ("invalid channel: " ++ channel)

theorem chanValid_iff_pattern (s : String) :
    chanValid s = true ↔ MatchesChanPattern s := by
  unfold chanValid MatchesChanPattern
  cases hs : s.data with
  | nil => simp
  | cons c cs =>
    rw [Bool.and_eq_true, List.all_eq_true]
    constructor
    · rintro ⟨hc, hcs⟩
      refine ⟨c, cs, rfl, ?_, ?_⟩
      · rcases Bool.or_eq_true _ _ |>.mp hc with h | h
        · rcases Bool.or_eq_true _ _ |>.mp
            (by simpa [Char.isAlpha] using h) with h2 | h2
          · right; left
            simpa [Char.isUpper] using h2
          · left
            simpa [Char.isLower] using h2
        · right; right
          exact beq_iff_eq.mp h
      · intro d hd
        rcases Bool.or_eq_true _ _ |>.mp (hcs d hd) with h | h
        · rcases Bool.or_eq_true _ _ |>.mp
            (by simpa [Char.isAlphanum] using h) with h2 | h2
          · rcases Bool.or_eq_true _ _ |>.mp
              (by simpa [Char.isAlpha] using h2) with h3 | h3
            · right; left
              simpa [Char.isUpper] using h3
            · left
              simpa [Char.isLower] using h3
          · right; right; left
            simpa [Char.isDigit] using h2
        · right; right; right
          exact beq_iff_eq.mp h
    · rintro ⟨c', cs', heq, hc, hcs⟩
      have hcc : c' = c ∧ cs' = cs := by
        have := heq
        rw [List.cons.injEq] at this
        exact ⟨this.1.symm, this.2.symm⟩
      obtain ⟨rfl, rfl⟩ := hcc
      constructor
      · rcases hc with h | h | h
        · apply Bool.or_eq_true _ _ |>.mpr
          left
          simp [Char.isAlpha, Char.isLower, Char.isUpper]
          right
          exact h
        · apply Bool.or_eq_true _ _ |>.mpr
          left
          simp [Char.isAlpha, Char.isLower, Char.isUpper]
          left
          exact h
        · apply Bool.or_eq_true _ _ |>.mpr
          right
          simp [h]
      · intro d hd
        rcases hcs d hd with h | h | h | h
        · apply Bool.or_eq_true _ _ |>.mpr
          left
          simp [Char.isAlphanum, Char.isAlpha, Char.isLower, Char.isUpper]
          left; right
          exact h
        · apply Bool.or_eq_true _ _ |>.mpr
          left
          simp [Char.isAlphanum, Char.isAlpha, Char.isLower, Char.isUpper]
          left; left
          exact h
        · apply Bool.or_eq_true _ _ |>.mpr
          left
          simp [Char.isAlphanum, Char.isDigit]
          right
          exact h
        · apply Bool.or_eq_true _ _ |>.mpr
          right
          simp [h]

/-- **C9.** Channel-name validation fails fast with no side effect: each of
`pgNotify`/`pgListen` (event-bus version) and `pgNotify` (no-op version)
raises exactly when the channel does not match `/^[a-z_][a-z0-9_]*$/i`, and
when it raises it returns only the error — the effect list is produced only
on the success path; every valid channel name succeeds. -/
theorem claim_C9_channel_validation :
    ∀ channel payload : String,
      ((∃ e, pgNotifyBus channel payload = .error e) ↔
        ¬ MatchesChanPattern channel) ∧
      (MatchesChanPattern channel →
        pgNotifyBus channel payload = .ok [.emit channel payload]) ∧
      (¬ MatchesChanPattern channel →
        pgNotifyBus channel payload = .error ("invalid channel: " ++ channel)) ∧
      ((∃ e, pgListenBus channel = .error e) ↔ ¬ MatchesChanPattern channel) ∧
      (MatchesChanPattern channel →
        pgListenBus channel = .ok [.registerListener channel]) ∧
      ((∃ e, pgNotifyNoop channel = .error e) ↔ ¬ MatchesChanPattern channel) ∧
      (MatchesChanPattern channel → pgNotifyNoop channel = .ok []) := by
  intro channel payload
  by_cases hv : chanValid channel = true
  · have hp : MatchesChanPattern channel := (chanValid_iff_pattern channel).mp hv
    refine ⟨?_, fun _ => by simp [pgNotifyBus, hv], fun hnp => absurd hp hnp,
      ?_, fun _ => by simp [pgListenBus, hv],
      ?_, fun _ => by simp [pgNotifyNoop, hv]⟩
    · constructor
      · rintro ⟨e, he⟩
        rw [pgNotifyBus, if_pos hv] at he
        exact absurd he (by simp)
      · intro hnp
        exact absurd hp hnp
    · constructor
      · rintro ⟨e, he⟩
        rw [pgListenBus, if_pos hv] at he
        exact absurd he (by simp)
      · intro hnp
        exact absurd hp hnp
    · constructor
      · rintro ⟨e, he⟩
        rw [pgNotifyNoop, if_pos hv] at he
        exact absurd he (by simp)
      · intro hnp
        exact absurd hp hnp
  · have hp : ¬ MatchesChanPattern channel :=
      fun h => hv ((chanValid_iff_pattern channel).mpr h)
    have hv' : chanValid channel = false := by simpa using hv
    refine ⟨?_, fun h => absurd h hp, fun _ => by simp [pgNotifyBus, hv'],
      ?_, fun h => absurd h hp, ?_, fun h => absurd h hp⟩
    · constructor
      · intro _
        exact hp
      · intro _
        exact ⟨"invalid channel: " ++ channel, by simp [pgNotifyBus, hv']⟩
    · constructor
      · intro _
        exact hp
      · intro _
        exact ⟨"invalid channel: " ++ channel, by simp [pgListenBus, hv']⟩
    · constructor
      · intro _
        exact hp
      · intro _
        exact ⟨"invalid channel: " ++ channel, by simp [pgNotifyNoop, hv']⟩

/-- **C9 (witness).** A concrete valid channel name succeeds with exactly
the emit effect. -/
theorem claim_C9_channel_validation_witness :
    pgNotifyBus "swap_events" "x" = .ok [.emit "swap_events" "x"] :=
  (claim_C9_channel_validation "swap_events" "x").2.1
    ⟨'s', "wap_events".data, rfl, by decide, by decide⟩
